import Mathlib

/-!
Verification of the project document model of `Core/GDCore/Project/Project.cpp`
(GDevelop core): a shallow embedding, in Lean, of the functions the claims are
about, followed by theorems settling each claim.

Conventions used throughout:
* `gd::String` is modelled by `String`; where a character-level computation is
  needed it is carried out on `String.data` (the list of characters).
* C++ functions that return a reference obtained from a possibly-failing
  `find_if` are modelled with `Option` (dereferencing the `end` iterator is
  undefined behaviour in the source).
* `std::size_t` sentinel results (`gd::String::npos`) are modelled by
  `Option Nat`, `none` standing for `npos`.
* Version numbers are modelled by `Nat` (they are non-negative in documents).
-/

/- ================================================================
   Version compatibility (Project::UnserializeFrom, claims C4 and C6)
   ================================================================ -/

/-- Modelled from the spec: `gd::VersionWrapper::IsOlderOrEqual` lives outside
`src/` (only its call sites are in `Project.cpp`).  Per the spec, document
versions are 4-tuples `(major, minor, build, revision)` totally ordered
lexicographically, compared with `(major, minor, build)` primary and revision
as the fourth component.  `IsOlderOrEqual v w` decides `v ≤ w` in that order. -/
def isOlderOrEqual (major minor build revision major2 minor2 build2 revision2 : Nat) : Bool :=
  if major < major2 then true
  else if major2 < major then false
  else if minor < minor2 then true
  else if minor2 < minor then false
  else if build < build2 then true
  else if build2 < build then false
  else decide (revision ≤ revision2)

/-- Embeds the legacy platform-name compatibility rewrite of
`Project::UnserializeFrom` (applied both to the `currentPlatform` value and to
every `platforms[]` entry).  The source guards the two renames with
`VersionWrapper::IsOlderOrEqual(gdMajorVersion, gdMajorVersion, gdMinorVersion,
0, 3, 4, 73, 0)` — note the arguments actually passed: the major version twice
and the minor version in the build slot — and then applies the two renames as
two successive `if` statements. -/
def migrateLegacyPlatformName (gdMajorVersion gdMinorVersion : Nat) (name : String) : String :=
  if isOlderOrEqual gdMajorVersion gdMajorVersion gdMinorVersion 0 3 4 73 0 then
    let name1 := if name == "Game Develop C++ platform" then "GDevelop C++ platform" else name
    let name2 := if name1 == "Game Develop JS platform" then "GDevelop JS platform" else name1
    name2
  else name

/-- Embeds the `useDeprecatedZeroAsDefaultZOrder` compatibility rule of
`Project::UnserializeFrom`.  `attr` is the attribute as found in the document
(`none` when `!propElement.HasAttribute("useDeprecatedZeroAsDefaultZOrder")`);
`Option.getD _ false` models `GetBoolAttribute(name, false)`.  The source
passes `(gdMajorVersion, gdMinorVersion, gdBuildVersion, 0)` against the
threshold `(4, 0, 98, 0)`. -/
def unserializeUseDeprecatedZeroAsDefaultZOrder
    (gdMajorVersion gdMinorVersion gdBuildVersion : Nat) (attr : Option Bool) : Bool :=
  if isOlderOrEqual gdMajorVersion gdMinorVersion gdBuildVersion 0 4 0 98 0 && attr.isNone then
    true
  else
    attr.getD false

/- ================================================================
   Safe names (Project::IsNameSafe / Project::GetSafeName, claim C10)
   ================================================================ -/

/-- Embeds `Project::IsNameSafe`.  `isAllowedInIdentifier` is a parameter
because `gd::GrammarTerminals::IsAllowedInIdentifier` lives outside `src/`;
both functions below consult the same predicate, exactly as the source does.
`Char.isDigit` models `isdigit` on the first code point. -/
def IsNameSafe (isAllowedInIdentifier : Char → Bool) (name : List Char) : Bool :=
  match name with
  | [] => false
  | c :: _ => !c.isDigit && name.all isAllowedInIdentifier

/-- Embeds `Project::GetSafeName`: the empty name becomes `"Unnamed"`, a name
whose first code point is a digit is prefixed with `'_'`, and the index loop
replaces every disallowed code point by `'_'` in place (a same-length
replacement at each index, hence a pointwise `map`). -/
def GetSafeName (isAllowedInIdentifier : Char → Bool) (name : List Char) : List Char :=
  if name = [] then "Unnamed".data
  else
    let newName := if (name.headD ' ').isDigit then '_' :: name else name
    newName.map (fun character => if isAllowedInIdentifier character then character else '_')

/- ================================================================
   Platform list (Project::AddPlatform / RemovePlatform, claim C9)
   ================================================================ -/

/-- A platform, as referenced by `Project` through a raw non-owning pointer.
`id` models the pointer identity (two distinct platform objects may carry the
same name); equality of `Platform` values models pointer equality. -/
structure Platform where
  id : Nat
  name : String
deriving DecidableEq

/-- The `platforms` vector and the `currentPlatform` raw pointer of a
`Project` (`none` models `NULL`). -/
structure ProjectPlatforms where
  platforms : List Platform
  currentPlatform : Option Platform
deriving DecidableEq

/-- Embeds `Project::AddPlatform`: a platform already present (by pointer) is
not re-added; otherwise it is appended, and becomes current if no current
platform was set. -/
def AddPlatform (st : ProjectPlatforms) (platform : Platform) : ProjectPlatforms :=
  if st.platforms.contains platform then st
  else
    { platforms := st.platforms ++ [platform]
      currentPlatform :=
        if st.currentPlatform.isNone then some platform else st.currentPlatform }

/-- Embeds `Project::RemovePlatform`.  With one platform or fewer it returns
`false` and changes nothing.  Otherwise the loop finds the first index whose
platform name matches (modelled by `find?` for the element and `eraseP` for
the erasure at that index); before erasing, `currentPlatform` is re-pointed:
first to `platforms.back()` if it was the removed pointer, then to
`platforms[0]` if it still is.  `getLast?`/`head?` are `some` here because the
list has at least two elements on this path. -/
def RemovePlatform (st : ProjectPlatforms) (platformName : String) :
    ProjectPlatforms × Bool :=
  if st.platforms.length ≤ 1 then (st, false)
  else
    match st.platforms.find? (fun p => p.name == platformName) with
    | none => (st, false)
    | some removed =>
      let current1 :=
        if st.currentPlatform == some removed then st.platforms.getLast? else st.currentPlatform
      let current2 :=
        if current1 == some removed then st.platforms.head? else current1
      ({ platforms := st.platforms.eraseP (fun p => p.name == platformName)
         currentPlatform := current2 }, true)

/- ================================================================
   Layout collection (Project::InsertNewLayout / GetLayout, claim C8)
   ================================================================ -/

/-- Modelled from the spec: `gd::Layout` lives outside `src/`; an entity has a
name and an entity-specific payload, here collapsed into one opaque `content`
field.  A default-constructed layout has empty name and content
(`UpdateBehaviorsSharedData` initialises shared data inside the layout and is
irrelevant to name-based lookup; it is treated as not changing this model). -/
structure Layout where
  name : String
  content : String
deriving DecidableEq

/-- Embeds `Project::InsertNewLayout`: a default-constructed layout is
emplaced at `position` when `position < scenes.size()` and at the end
otherwise, then its name is set.  Returns the new list together with the
newly inserted layout (the C++ returns a reference to it). -/
def InsertNewLayout (scenes : List Layout) (name : String) (position : Nat) :
    List Layout × Layout :=
  let newlyInsertedLayout : Layout := { name := name, content := "" }
  let idx := if position < scenes.length then position else scenes.length
  (scenes.insertIdx idx newlyInsertedLayout, newlyInsertedLayout)

/-- Embeds the by-name `Project::GetLayout`: `find_if` on the layout name,
first match wins; `none` models the undefined dereference when absent. -/
def GetLayout (scenes : List Layout) (name : String) : Option Layout :=
  scenes.find? (fun layout => layout.name == name)

/-- Embeds `Project::HasLayoutNamed`. -/
def HasLayoutNamed (scenes : List Layout) (name : String) : Bool :=
  (scenes.find? (fun layout => layout.name == name)).isSome

/- ================================================================
   Default behaviors (Project::EnsureObjectDefaultBehaviors, claims C2, C5)
   ================================================================ -/

/-- A behavior attached to an object: a name, an underlying behavior type and
the is-default flag. -/
structure Behavior where
  name : String
  typeName : String
  isDefaultBehavior : Bool
deriving DecidableEq

/-- Modelled from the spec: `gd::Object` lives outside `src/`; an object has a
type and a name-keyed collection of behaviors ("an ObjectInstance has at most
one behavior per behavior-name"), modelled as a list of behaviors whose names
are unique, with name lookups returning the first match. -/
structure Object where
  objectType : String
  behaviors : List Behavior
deriving DecidableEq

/-- Models `gd::Object::GetBehavior` (with `HasBehaviorNamed` as `isSome`). -/
def getBehavior (behaviors : List Behavior) (behaviorName : String) : Option Behavior :=
  behaviors.find? (fun b => b.name == behaviorName)

/-- Models `gd::Object::HasBehaviorNamed`. -/
def hasBehaviorNamed (behaviors : List Behavior) (behaviorName : String) : Bool :=
  behaviors.any (fun b => b.name == behaviorName)

/-- Models `gd::Object::RemoveBehavior`: the entry keyed by that name is
dropped (names are unique in the source's map, so a filter is the erasure). -/
def removeBehavior (behaviors : List Behavior) (behaviorName : String) : List Behavior :=
  behaviors.filter (fun b => b.name != behaviorName)

/-- Embeds the `addDefaultBehavior` lambda of
`Project::EnsureObjectDefaultBehaviors`.  `behaviorMetadata ty` is the default
name carried by the behavior metadata for `ty` (`none` models
`IsBadBehaviorMetadata`, where the lambda only logs and returns).  A
same-named behavior that is not flagged default or has another type is
removed; then, if no behavior with the default name is left, a fresh one is
added via the factory (`AddNewBehavior` + `SetDefaultBehavior(true)`). -/
def addDefaultBehavior (behaviorMetadata : String → Option String)
    (behaviors : List Behavior) (behaviorType : String) : List Behavior :=
  match behaviorMetadata behaviorType with
  | none => behaviors
  | some behaviorName =>
    let behaviors1 :=
      match getBehavior behaviors behaviorName with
      | some behavior =>
        if !behavior.isDefaultBehavior || behavior.typeName != behaviorType then
          removeBehavior behaviors behaviorName
        else behaviors
      | none => behaviors
    if hasBehaviorNamed behaviors1 behaviorName then behaviors1
    else behaviors1 ++ [{ name := behaviorName, typeName := behaviorType,
                          isDefaultBehavior := true }]

/-- Embeds the second loop of `Project::EnsureObjectDefaultBehaviors`: over a
snapshot of all behavior names, every behavior flagged default whose type is
no longer among the declared default behavior types is removed. -/
def removeUnusedDefaultBehaviors (defaultBehaviorTypes : List String)
    (behaviors : List Behavior) : List Behavior :=
  (behaviors.map (fun b => b.name)).foldl (fun bs behaviorName =>
    match getBehavior bs behaviorName with
    | none => bs
    | some behavior =>
      if !behavior.isDefaultBehavior then bs
      else if defaultBehaviorTypes.contains behavior.typeName then bs
      else removeBehavior bs behaviorName) behaviors

/-- Embeds `Project::EnsureObjectDefaultBehaviors`.  `objectMetadata ty` is
the ordered set of default behavior types declared by the object metadata for
`ty` (`none` models `IsBadObjectMetadata`, in which case the function only
logs a warning — possibly about an unknown type — and leaves the object
untouched). -/
def EnsureObjectDefaultBehaviors (behaviorMetadata : String → Option String)
    (objectMetadata : String → Option (List String)) (object : Object) : Object :=
  match objectMetadata object.objectType with
  | some defaultBehaviorTypes =>
    let behaviors1 := defaultBehaviorTypes.foldl (addDefaultBehavior behaviorMetadata)
      object.behaviors
    let behaviors2 := removeUnusedDefaultBehaviors defaultBehaviorTypes behaviors1
    { object with behaviors := behaviors2 }
  | none => object

/-- The canonical default names declared by an object type: its declared
default behavior types, each resolved through the behavior metadata.  (Used
to state which names the synchronizer may touch.) -/
def declaredDefaultBehaviorNames (behaviorMetadata : String → Option String)
    (objectMetadata : String → Option (List String)) (objectType : String) : List String :=
  ((objectMetadata objectType).getD []).filterMap behaviorMetadata

/-- The type the synchronizer will leave for a canonical name `n`: the last
type among `ts` whose metadata resolves to the default name `n`. -/
def canonicalTypeFor (behaviorMetadata : String → Option String)
    (ts : List String) (n : String) : Option String :=
  (ts.filter (fun t => behaviorMetadata t == some n)).getLast?

/- ================================================================
   Extension dependency resolver
   (Project::GetUnserializingOrderExtensionNames, claims C1, C3)
   ================================================================ -/

/-- Returns the characters before the first `"::"` namespace separator (all
of them when there is none). -/
def takeUntilNamespaceSeparator : List Char → List Char
  | [] => []
  | ':' :: ':' :: _ => []
  | c :: rest => c :: takeUntilNamespaceSeparator rest

/-- Modelled from the spec: `gd::PlatformExtension::GetExtensionFromFullObjectType`
lives outside `src/`; full type tokens are `"ExtensionName::TypeName"`, and
the function returns the substring before the separator
(`type.substr(0, type.find("::"))`, the whole string when no separator). -/
def getExtensionFromFullObjectType (objectType : String) : String :=
  ⟨takeUntilNamespaceSeparator objectType.data⟩

/-- One serialized `eventsBasedObject` element, reduced to what the resolver
reads from it: the `"type"` attributes of its child `objects[]`. -/
structure EventsBasedObjectDecl where
  objectTypes : List String
deriving DecidableEq

/-- One serialized `eventsFunctionsExtension` element, reduced to what the
resolver reads: its `"name"` attribute and its `eventsBasedObjects[]`. -/
structure ExtensionFragment where
  name : String
  eventsBasedObjects : List EventsBasedObjectDecl
deriving DecidableEq

/-- Embeds the `isDependentFromRemainingExtensions` lambda of
`Project::GetUnserializingOrderExtensionNames`: some child object of some
events-based object has a type owned by a different extension that is still
in the remaining list. -/
def isDependentFromRemainingExtensions (remainingExtensionNames : List String)
    (eventsFunctionsExtensionElement : ExtensionFragment) : Bool :=
  eventsFunctionsExtensionElement.eventsBasedObjects.any (fun eventsBasedObject =>
    eventsBasedObject.objectTypes.any (fun objectType =>
      let extensionName := eventsFunctionsExtensionElement.name
      let usedExtensionName := getExtensionFromFullObjectType objectType
      usedExtensionName != extensionName &&
        remainingExtensionNames.contains usedExtensionName))

/-- The element a name resolves to through `extensionNameToElementIndex`
(built with `map[name] = i` over all children, so the last same-named element
wins) followed by `GetChild(elementIndex)`. -/
def findFragmentElement (frags : List ExtensionFragment) (extensionName : String) :
    Option ExtensionFragment :=
  (frags.filter (fun f => f.name == extensionName)).getLast?

/-- The dependency test run for one remaining name: look its element up and
apply `isDependentFromRemainingExtensions`.  (`none` cannot occur for names
drawn from `frags`; a missing element counts as not dependent.) -/
def dependentOnRemaining (frags : List ExtensionFragment) (extensionName : String)
    (remainingExtensionNames : List String) : Bool :=
  match findFragmentElement frags extensionName with
  | some frag => isDependentFromRemainingExtensions remainingExtensionNames frag
  | none => false

/-- One iteration of the `while (foundAnyExtension)` body: the inner `for`
loop over `remainingExtensionNames` with in-place erasure (`i--` after an
erase).  `kept` is the already-scanned prefix that stayed, `todo` the part of
the remaining list not yet scanned; the list the dependency test sees at each
step is `kept ++ todo`, exactly as in the source.  Returns the grown output,
the remaining list after the pass, and the `foundAnyExtension` flag. -/
def resolveOnePass (frags : List ExtensionFragment) (kept todo output : List String)
    (foundAnyExtension : Bool) : List String × List String × Bool :=
  match todo with
  | [] => (output, kept, foundAnyExtension)
  | extensionName :: rest =>
    if dependentOnRemaining frags extensionName (kept ++ extensionName :: rest) then
      resolveOnePass frags (kept ++ [extensionName]) rest output foundAnyExtension
    else
      resolveOnePass frags kept rest (output ++ [extensionName]) true

/-- The `while (foundAnyExtension)` loop of
`Project::GetUnserializingOrderExtensionNames`: repeat full passes while at
least one extension moved; stop at the first pass that moves none.  Returns
`loadOrderExtensionNames` together with the remaining (stuck) names at the
fixed point — the source returns only the former and discards the latter. -/
def resolveLoop (frags : List ExtensionFragment) (remaining output : List String) :
    List String × List String :=
  let r := resolveOnePass frags [] remaining output false
  if h : r.2.2 = true then
    resolveLoop frags r.2.1 r.1
  else
    (r.1, r.2.1)
termination_by remaining.length
decreasing_by
  have hle : ∀ (todo kept out : List String) (m : Bool),
      (resolveOnePass frags kept todo out m).2.1.length ≤ kept.length + todo.length := by
    intro todo
    induction todo with
    | nil => intro kept out m; simp [resolveOnePass]
    | cons x rest ih =>
      intro kept out m
      by_cases hdep : dependentOnRemaining frags x (kept ++ x :: rest) = true
      · simp only [resolveOnePass, hdep, if_true]
        have := ih (kept ++ [x]) out m
        simp at this
        simp
        omega
      · simp only [resolveOnePass, hdep, if_false]
        have := ih kept (out ++ [x]) true
        simp
        omega
  have hlt : ∀ (todo kept out : List String),
      (resolveOnePass frags kept todo out false).2.2 = true →
      (resolveOnePass frags kept todo out false).2.1.length < kept.length + todo.length := by
    intro todo
    induction todo with
    | nil => intro kept out hfl; simp [resolveOnePass] at hfl
    | cons x rest ih =>
      intro kept out hfl
      by_cases hdep : dependentOnRemaining frags x (kept ++ x :: rest) = true
      · simp only [resolveOnePass, hdep, if_true] at hfl ⊢
        have := ih (kept ++ [x]) out hfl
        simp at this
        simp
        omega
      · simp only [resolveOnePass, hdep, if_false]
        have := hle rest kept (out ++ [x]) true
        simp
        omega
  have := hlt remaining [] output h
  simpa using this

/-- Embeds `Project::GetUnserializingOrderExtensionNames`: seed the remaining
list with all extension names in document order, run the fixed point, return
the load order (the stuck remainder is dropped). -/
def GetUnserializingOrderExtensionNames (frags : List ExtensionFragment) : List String :=
  (resolveLoop frags (frags.map (fun f => f.name)) []).1

/-- The names still remaining when the fixed point stops (the source computes
this list in `remainingExtensionNames` and discards it on return). -/
def UnresolvedExtensionNamesAtFixpoint (frags : List ExtensionFragment) : List String :=
  (resolveLoop frags (frags.map (fun f => f.name)) []).2

/-- All extension names referenced by the child object types of a fragment's
events-based objects (the candidates `usedExtensionName` ranges over). -/
def fragDeps (frag : ExtensionFragment) : List String :=
  (frag.eventsBasedObjects.map (fun e => e.objectTypes.map getExtensionFromFullObjectType)).flatten

/-- The dependency graph over extension names induced by the document:
`dependsOn frags a b` iff the element `a` resolves to embeds a child object
type owned by `b`, with `b` a different extension that is present in the
input set (self-references and references to absent extensions are not
edges, matching the test in the source). -/
def dependsOn (frags : List ExtensionFragment) (a b : String) : Prop :=
  ∃ frag, findFragmentElement frags a = some frag ∧
    b ∈ fragDeps frag ∧ b ≠ a ∧ b ∈ frags.map (fun f => f.name)

/-- An output list respects the dependency graph when every name in it is
preceded by everything it depends on. -/
def OutputRespectsDeps (frags : List ExtensionFragment) (output : List String) : Prop :=
  ∀ pre x post, output = pre ++ x :: post → ∀ b, dependsOn frags x b → b ∈ pre

/- ================================================================
   Second (implementation) pass
   (Project::UnserializeAndInsertExtensionsFrom, claim C7)
   ================================================================ -/

/-- Embeds `Project::GetEventsFunctionsExtensionPosition` over the list of
extension names: first index with that name, `none` for `gd::String::npos`. -/
def GetEventsFunctionsExtensionPosition (extensionNames : List String) (name : String) :
    Option Nat :=
  extensionNames.findIdx? (fun n => n == name)

/-- Embeds the second pass of `Project::UnserializeAndInsertExtensionsFrom`,
reduced to its dispatch: for each name of the computed load order, if the
name resolves to no extension in the collection (`npos`) an error is logged
and the name is skipped (`continue`); if no element index was recorded for it
in `extensionNameToElementIndex`, likewise; otherwise the extension's
implementation is unserialized.  The returned list is the sequence of
extensions whose `UnserializeExtensionImplementationFrom` ran (the collection
and the index map are not changed by the loop). -/
def unserializeImplementationPass (extensionNames : List String)
    (extensionNameToElementIndex : List (String × Nat)) (loadOrder : List String) :
    List String :=
  loadOrder.foldl (fun implemented extensionName =>
    if (GetEventsFunctionsExtensionPosition extensionNames extensionName).isNone then
      implemented
    else if (extensionNameToElementIndex.find? (fun kv => kv.1 == extensionName)).isNone then
      implemented
    else
      implemented ++ [extensionName]) []

/- ================================================================
   Concrete instances used by witnesses and counterexamples
   ================================================================ -/

/-- A concrete identifier-character predicate in the shape of
`GrammarTerminals::IsAllowedInIdentifier`: letters, digits and underscore. -/
def exampleAllowedInIdentifier : Char → Bool :=
  fun c => c.isAlpha || c.isDigit || c == '_'

/-- A concrete behavior-metadata registry: one known behavior type with
default name `"Effect"`. -/
def exampleBehaviorMetadata : String → Option String :=
  fun behaviorType =>
    if behaviorType = "EffectCapability::EffectBehavior" then some "Effect" else none

/-- A concrete object-metadata registry: `"Sprite"` declares one default
behavior type; every other type is unknown. -/
def exampleObjectMetadata : String → Option (List String) :=
  fun objectType =>
    if objectType = "Sprite" then some ["EffectCapability::EffectBehavior"] else none

/-- Two extension fragments forming a dependency cycle: a custom object of
`A` embeds a child of type `B::Bar`, and one of `B` embeds `A::Foo`. -/
def exampleCyclicFragments : List ExtensionFragment :=
  [{ name := "A", eventsBasedObjects := [{ objectTypes := ["B::Bar"] }] },
   { name := "B", eventsBasedObjects := [{ objectTypes := ["A::Foo"] }] }]

/-- One extension fragment whose custom object has a self-referencing child
type and a child type owned by an extension absent from the input set —
neither reference blocks it. -/
def exampleSelfRefFragment : ExtensionFragment :=
  { name := "A", eventsBasedObjects := [{ objectTypes := ["A::Child", "Missing::Other"] }] }

/- ================================================================
   Theorems.  First, general helper lemmas.
   ================================================================ -/

theorem isOlderOrEqual_mmm (M m : Nat) :
    isOlderOrEqual M M m 0 3 4 73 0 = decide (M ≤ 3) := by
  unfold isOlderOrEqual
  split_ifs <;> simp_all <;> omega

theorem isOlderOrEqual_zorder (M m b : Nat) :
    isOlderOrEqual M m b 0 4 0 98 0 = true ↔ M < 4 ∨ (M = 4 ∧ m = 0 ∧ b ≤ 98) := by
  unfold isOlderOrEqual
  split_ifs <;> simp_all <;> omega

/-- Claim C4 (corrected): the legacy platform renames are applied exactly when
the shuffled comparison `(major, major, minor, 0) ≤ (3, 4, 73, 0)` holds,
which collapses to `major ≤ 3`: the minor version occupies the build slot and
can never tip the comparison because the second component compares the major
version against 4.  In particular a document with version `(0,3,4,73)` is
still rewritten, but so is any document with major version at most 3 — for
example `(1,0,0,0)`, which is greater than the claimed cutoff `(0,3,4,73)`. -/
theorem c4_theorem (gdMajorVersion gdMinorVersion : Nat) (name : String) :
    migrateLegacyPlatformName gdMajorVersion gdMinorVersion name =
      if gdMajorVersion ≤ 3 then
        if name = "Game Develop C++ platform" then "GDevelop C++ platform"
        else if name = "Game Develop JS platform" then "GDevelop JS platform"
        else name
      else name := by
  unfold migrateLegacyPlatformName
  rw [isOlderOrEqual_mmm]
  by_cases hM : gdMajorVersion ≤ 3
  · simp only [hM, decide_eq_true_eq, if_pos]
    by_cases h1 : name = "Game Develop C++ platform"
    · subst h1; simp
    · by_cases h2 : name = "Game Develop JS platform"
      · subst h2; simp
      · simp [h1, h2]
  · simp [hM]

/-- Claim C4, counterexample: the document version `(1,0,0,0)` is greater
than the claimed cutoff `(0,3,4,73)` in the 4-tuple lexicographic order, yet
the legacy platform name `"Game Develop JS platform"` is still rewritten
during load, contradicting "a document whose version is greater than the
cutoff keeps its platform names unchanged". -/
theorem c4_counterexample :
    isOlderOrEqual 1 0 0 0 0 3 4 73 = false ∧
    migrateLegacyPlatformName 1 0 "Game Develop JS platform" = "GDevelop JS platform" := by
  constructor
  · decide
  · decide

/-- Claim C6 (corrected): when the attribute is explicitly present its value
always wins, at any version; when it is absent, the field defaults to `true`
exactly when `(major, minor, build, 0) ≤ (4, 0, 98, 0)` lexicographically —
i.e. `major < 4`, or `major = 4 ∧ minor = 0 ∧ build ≤ 98` — the document's
revision being ignored.  The claimed threshold `(0,4,0,98)` on the document
4-tuple mis-groups the arguments of the comparison in the source. -/
theorem c6_theorem (gdMajorVersion gdMinorVersion gdBuildVersion : Nat) :
    (∀ v : Bool,
      unserializeUseDeprecatedZeroAsDefaultZOrder gdMajorVersion gdMinorVersion gdBuildVersion
        (some v) = v) ∧
    (unserializeUseDeprecatedZeroAsDefaultZOrder gdMajorVersion gdMinorVersion gdBuildVersion
        none = true ↔
      gdMajorVersion < 4 ∨
        (gdMajorVersion = 4 ∧ gdMinorVersion = 0 ∧ gdBuildVersion ≤ 98)) := by
  constructor
  · intro v
    simp [unserializeUseDeprecatedZeroAsDefaultZOrder]
  · rw [← isOlderOrEqual_zorder gdMajorVersion gdMinorVersion gdBuildVersion]
    unfold unserializeUseDeprecatedZeroAsDefaultZOrder
    cases h : isOlderOrEqual gdMajorVersion gdMinorVersion gdBuildVersion 0 4 0 98 0 <;>
      simp [h]

/-- Claim C6, counterexample: the document version `(0,5,0,0)` is greater
than the claimed threshold `(0,4,0,98)` in the 4-tuple lexicographic order,
so the claim requires the absent attribute to default to `false`; the code
sets it to `true` (its comparison is `(0,5,0,0) ≤ (4,0,98,0)`, true because
`0 < 4`). -/
theorem c6_counterexample :
    isOlderOrEqual 0 5 0 0 0 4 0 98 = false ∧
    unserializeUseDeprecatedZeroAsDefaultZOrder 0 5 0 none = true := by
  constructor
  · decide
  · decide

/-- Claim C10 (confirmed): `GetSafeName` always produces a name accepted by
`IsNameSafe`, and is the identity on names `IsNameSafe` already accepts.  The
two hypotheses record the only facts needed about the (external) identifier
character set: underscore is allowed, and the letters of `"Unnamed"` are
allowed. -/
theorem c10_theorem (isAllowedInIdentifier : Char → Bool)
    (hu : isAllowedInIdentifier '_' = true)
    (hU : "Unnamed".data.all isAllowedInIdentifier = true) (name : List Char) :
    IsNameSafe isAllowedInIdentifier (GetSafeName isAllowedInIdentifier name) = true ∧
    (IsNameSafe isAllowedInIdentifier name = true →
      GetSafeName isAllowedInIdentifier name = name) := by
  constructor
  · by_cases hempty : name = []
    · subst hempty
      have h1 : GetSafeName isAllowedInIdentifier [] = "Unnamed".data := by
        simp [GetSafeName]
      rw [h1]
      have hdata : "Unnamed".data = ['U', 'n', 'n', 'a', 'm', 'e', 'd'] := rfl
      rw [hdata] at hU ⊢
      simp only [IsNameSafe]
      rw [hU]
      decide
    · obtain ⟨c, rest, rfl⟩ := List.exists_cons_of_ne_nil hempty
      simp only [GetSafeName, if_neg hempty]
      have hall : ∀ (l : List Char),
          (l.map (fun character =>
            if isAllowedInIdentifier character then character else '_')).all
            isAllowedInIdentifier = true := by
        intro l
        simp only [List.all_eq_true, List.mem_map]
        rintro y ⟨x, _, rfl⟩
        by_cases hx : isAllowedInIdentifier x = true
        · simpa [hx] using hx
        · simp [hx, hu]
      have hheadsafe : ∀ (d : Char) (l : List Char), d.isDigit = false →
          IsNameSafe isAllowedInIdentifier
            ((d :: l).map (fun character =>
              if isAllowedInIdentifier character then character else '_')) = true := by
        intro d l hd
        simp only [List.map_cons, IsNameSafe, Bool.and_eq_true, Bool.not_eq_true']
        constructor
        · by_cases hx : isAllowedInIdentifier d = true
          · simpa [hx] using hd
          · simp [hx]
        · have := hall (d :: l)
          simpa using this
      by_cases hd : (Char.isDigit c) = true
      · simp only [List.headD_cons, hd, if_pos]
        exact hheadsafe '_' (c :: rest) (by decide)
      · simp only [List.headD_cons, hd, Bool.false_eq_true, if_neg, if_false]
        exact hheadsafe c rest (by simpa using hd)
  · intro hsafe
    obtain ⟨c, rest, rfl⟩ : ∃ c rest, name = c :: rest := by
      cases name with
      | nil => simp [IsNameSafe] at hsafe
      | cons c rest => exact ⟨c, rest, rfl⟩
    simp only [IsNameSafe, Bool.and_eq_true, Bool.not_eq_true', List.all_eq_true] at hsafe
    obtain ⟨hdig, hall⟩ := hsafe
    simp only [GetSafeName, if_neg (List.cons_ne_nil c rest), List.headD_cons, hdig,
      Bool.false_eq_true, if_false]
    have : ∀ x ∈ c :: rest,
        (if isAllowedInIdentifier x then x else '_') = id x := by
      intro x hx
      simp [hall x hx]
    rw [List.map_congr_left this, List.map_id]

/-- Claim C10, witness: with letters/digits/underscore as the identifier
characters, `"9 a"` is made safe and the already-safe `"ok_1"` is unchanged. -/
theorem c10_witness :
    exampleAllowedInIdentifier '_' = true ∧
    "Unnamed".data.all exampleAllowedInIdentifier = true ∧
    IsNameSafe exampleAllowedInIdentifier
      (GetSafeName exampleAllowedInIdentifier "9 a".data) = true ∧
    GetSafeName exampleAllowedInIdentifier "ok_1".data = "ok_1".data := by
  refine ⟨by decide, by decide, ?_, ?_⟩
  · exact (c10_theorem exampleAllowedInIdentifier (by decide) (by decide) "9 a".data).1
  · exact (c10_theorem exampleAllowedInIdentifier (by decide) (by decide) "ok_1".data).2
      (by decide)

theorem insertIdx_eq_take_cons_drop {α : Type} (a : α) :
    ∀ (n : Nat) (l : List α), n ≤ l.length →
      l.insertIdx n a = l.take n ++ a :: l.drop n := by
  intro n
  induction n with
  | zero => intro l _; simp [List.insertIdx_zero]
  | succ k ih =>
    intro l hlen
    cases l with
    | nil => simp at hlen
    | cons b t =>
      simp only [List.insertIdx_succ_cons, List.take_succ_cons, List.drop_succ_cons,
        List.cons_append]
      rw [ih t (by simpa using hlen)]

/-- Claim C8 (corrected): when no layout named `n` is already present,
`InsertNewLayout n p` inserts the default-constructed layout named `n` at
index `p` when `p < Count()` and appends it otherwise, and a subsequent
`GetLayout n` returns exactly the inserted entity.  (Without the freshness
precondition the first-match lookup can return an older same-named layout
instead — see the counterexample.) -/
theorem c8_theorem (scenes : List Layout) (name : String) (position : Nat)
    (hfresh : ∀ l ∈ scenes, l.name ≠ name) :
    GetLayout (InsertNewLayout scenes name position).1 name =
      some (InsertNewLayout scenes name position).2 ∧
    (InsertNewLayout scenes name position).2 = { name := name, content := "" } ∧
    (InsertNewLayout scenes name position).1 =
      scenes.take (if position < scenes.length then position else scenes.length) ++
        (InsertNewLayout scenes name position).2 ::
          scenes.drop (if position < scenes.length then position else scenes.length) := by
  have hidx : (if position < scenes.length then position else scenes.length) ≤
      scenes.length := by
    split_ifs with h
    · omega
    · omega
  have hdecomp : (InsertNewLayout scenes name position).1 =
      scenes.take (if position < scenes.length then position else scenes.length) ++
        ({ name := name, content := "" } : Layout) ::
          scenes.drop (if position < scenes.length then position else scenes.length) := by
    simp only [InsertNewLayout]
    exact insertIdx_eq_take_cons_drop _ _ scenes hidx
  refine ⟨?_, rfl, hdecomp⟩
  rw [hdecomp]
  simp only [GetLayout]
  rw [List.find?_append]
  have htake : List.find? (fun layout => layout.name == name)
      (scenes.take (if position < scenes.length then position else scenes.length)) = none := by
    rw [List.find?_eq_none]
    intro x hx
    have hxs : x ∈ scenes := List.mem_of_mem_take hx
    simpa using hfresh x hxs
  rw [htake]
  simp [InsertNewLayout]

/-- Claim C8, counterexample: over the collection state `[⟨"a","X"⟩]` that
already holds a layout named `"a"`, `InsertNewLayout "a" 1` inserts a fresh
default layout `⟨"a",""⟩`, but `GetLayout "a"` returns the pre-existing first
match `⟨"a","X"⟩`, not the entity just inserted. -/
theorem c8_counterexample :
    (InsertNewLayout [{ name := "a", content := "X" }] "a" 1).2 =
      { name := "a", content := "" } ∧
    GetLayout (InsertNewLayout [{ name := "a", content := "X" }] "a" 1).1 "a" =
      some { name := "a", content := "X" } ∧
    ({ name := "a", content := "X" } : Layout) ≠ { name := "a", content := "" } := by
  refine ⟨rfl, ?_, by decide⟩
  decide

/-- Claim C8, witness: inserting a fresh name into a one-layout collection and
looking it up returns the inserted entity. -/
theorem c8_witness :
    GetLayout (InsertNewLayout [{ name := "b", content := "Y" }] "a" 0).1 "a" =
      some (InsertNewLayout [{ name := "b", content := "Y" }] "a" 0).2 := by
  exact (c8_theorem [{ name := "b", content := "Y" }] "a" 0 (by decide)).1

theorem foldl_append_filter {α : Type} (q : α → Bool) :
    ∀ (l acc : List α),
      l.foldl (fun a x => if q x then a ++ [x] else a) acc = acc ++ l.filter q := by
  intro l
  induction l with
  | nil => intro acc; simp
  | cons x t ih =>
    intro acc
    by_cases hx : q x = true
    · simp only [List.foldl_cons, hx, if_pos, List.filter_cons_of_pos hx]
      rw [ih]
      simp
    · simp only [List.foldl_cons, hx, Bool.false_eq_true, if_false,
        List.filter_cons_of_neg (by simpa using hx)]
      exact ih acc

theorem unserializeImplementationPass_eq_filter (extensionNames : List String)
    (extensionNameToElementIndex : List (String × Nat)) (loadOrder : List String) :
    unserializeImplementationPass extensionNames extensionNameToElementIndex loadOrder =
      loadOrder.filter (fun extensionName =>
        !(GetEventsFunctionsExtensionPosition extensionNames extensionName).isNone &&
        !(extensionNameToElementIndex.find? (fun kv => kv.1 == extensionName)).isNone) := by
  unfold unserializeImplementationPass
  have hbody : (fun (implemented : List String) (extensionName : String) =>
      if (GetEventsFunctionsExtensionPosition extensionNames extensionName).isNone then
        implemented
      else if (extensionNameToElementIndex.find? (fun kv => kv.1 == extensionName)).isNone then
        implemented
      else implemented ++ [extensionName]) =
      (fun (implemented : List String) (extensionName : String) =>
        if (!(GetEventsFunctionsExtensionPosition extensionNames extensionName).isNone &&
            !(extensionNameToElementIndex.find? (fun kv => kv.1 == extensionName)).isNone) then
          implemented ++ [extensionName]
        else implemented) := by
    funext implemented extensionName
    by_cases h1 : (GetEventsFunctionsExtensionPosition extensionNames extensionName).isNone
    · simp [h1]
    · by_cases h2 :
        (extensionNameToElementIndex.find? (fun kv => kv.1 == extensionName)).isNone
      · simp [h1, h2]
      · simp [h1, h2]
  rw [hbody, foldl_append_filter]
  simp

/-- Claim C7 (confirmed): in the implementation pass, a load-order name whose
extension cannot be found in the collection (`npos` position) or that has no
recorded document fragment is skipped — its implementation is never
unserialized — while every other name of the (duplicate-free) load order has
its implementation unserialized exactly once. -/
theorem c7_theorem (extensionNames : List String)
    (extensionNameToElementIndex : List (String × Nat)) (loadOrder : List String)
    (hnd : loadOrder.Nodup) (extensionName : String) (hmem : extensionName ∈ loadOrder) :
    (((GetEventsFunctionsExtensionPosition extensionNames extensionName).isNone = true ∨
        (extensionNameToElementIndex.find? (fun kv => kv.1 == extensionName)).isNone = true) →
      extensionName ∉
        unserializeImplementationPass extensionNames extensionNameToElementIndex loadOrder) ∧
    ((GetEventsFunctionsExtensionPosition extensionNames extensionName).isNone = false →
      (extensionNameToElementIndex.find? (fun kv => kv.1 == extensionName)).isNone = false →
      (unserializeImplementationPass extensionNames extensionNameToElementIndex
          loadOrder).count extensionName = 1) := by
  rw [unserializeImplementationPass_eq_filter]
  constructor
  · intro hfail hmemf
    rw [List.mem_filter] at hmemf
    rcases hfail with h | h <;> simp [h] at hmemf
  · intro h1 h2
    have hq : (!(GetEventsFunctionsExtensionPosition extensionNames extensionName).isNone &&
        !(extensionNameToElementIndex.find? (fun kv => kv.1 == extensionName)).isNone) =
        true := by
      simp [h1, h2]
    have hcf := List.count_filter
      (p := fun extensionName : String =>
        !(GetEventsFunctionsExtensionPosition extensionNames extensionName).isNone &&
        !(extensionNameToElementIndex.find? (fun kv => kv.1 == extensionName)).isNone)
      (a := extensionName) (l := loadOrder) hq
    rw [hcf]
    exact List.count_eq_one_of_mem hnd hmem

/-- Claim C7, witness: with extensions `["A","B"]`, fragments recorded for
both, and load order `["B","A"]`, the extension `"B"` is implemented exactly
once; a name with no recorded fragment is skipped. -/
theorem c7_witness :
    (unserializeImplementationPass ["A", "B"] [("A", 0), ("B", 1)] ["B", "A"]).count "B" = 1 ∧
    "C" ∉ unserializeImplementationPass ["A", "B", "C"] [("A", 0), ("B", 1)] ["B", "A", "C"] := by
  constructor
  · have h1 := c7_theorem ["A", "B"] [("A", 0), ("B", 1)] ["B", "A"] (by decide) "B"
      (by decide)
    exact h1.2 (by decide) (by decide)
  · have h2 := c7_theorem ["A", "B", "C"] [("A", 0), ("B", 1)] ["B", "A", "C"] (by decide)
      "C" (by decide)
    exact h2.1 (Or.inr (by decide))

theorem getLast?_cons_elim {α : Type} (a x : α) (l : List α)
    (h : (a :: l).getLast? = some x) : l = [] ∨ l.getLast? = some x := by
  cases l with
  | nil => exact Or.inl rfl
  | cons y t =>
    right
    rw [List.getLast?_cons_cons] at h
    exact h

/-- Claim C9 (confirmed): whenever `currentPlatform` points at one of the
registered platforms, `RemovePlatform` returns `false` and leaves everything
unchanged when at most one platform is registered, and in every case the
resulting `currentPlatform` still points at a platform of the resulting list
(reassigned to `platforms.back()`, or to `platforms[0]`, when the platform it
pointed to is the one being erased). -/
theorem c9_theorem (st : ProjectPlatforms) (platformName : String) (c : Platform)
    (hc : st.currentPlatform = some c) (hmem : c ∈ st.platforms) :
    (st.platforms.length ≤ 1 → RemovePlatform st platformName = (st, false)) ∧
    ∃ c2 : Platform, (RemovePlatform st platformName).1.currentPlatform = some c2 ∧
      c2 ∈ (RemovePlatform st platformName).1.platforms := by
  by_cases hlen : st.platforms.length ≤ 1
  · have hres : RemovePlatform st platformName = (st, false) := by
      unfold RemovePlatform
      simp [hlen]
    exact ⟨fun _ => hres, c, by rw [hres]; exact hc, by rw [hres]; exact hmem⟩
  · refine ⟨fun h => absurd h hlen, ?_⟩
    have hlen2 : 2 ≤ st.platforms.length := by omega
    have hne : st.platforms ≠ [] := by
      intro h
      rw [h] at hlen2
      simp at hlen2
    cases hfind : st.platforms.find? (fun p => p.name == platformName) with
    | none =>
      have hres : RemovePlatform st platformName = (st, false) := by
        unfold RemovePlatform
        simp [hlen, hfind]
      exact ⟨c, by rw [hres]; exact hc, by rw [hres]; exact hmem⟩
    | some removed =>
      have hrem_mem : removed ∈ st.platforms := List.mem_of_find?_eq_some hfind
      have hrem_p : (removed.name == platformName) = true :=
        List.find?_some (p := fun p : Platform => p.name == platformName) hfind
      obtain ⟨a, l₁, l₂, hl₁, hpa, hdecomp, herase⟩ :=
        List.exists_of_eraseP (p := fun p : Platform => p.name == platformName)
          hrem_mem hrem_p
      have ha : a = removed := by
        have hfa : st.platforms.find? (fun p => p.name == platformName) = some a := by
          rw [hdecomp, List.find?_append]
          have h0 : List.find? (fun p => p.name == platformName) l₁ = none :=
            List.find?_eq_none.2 hl₁
          rw [h0]
          simp [hpa]
        have := hfind.symm.trans hfa
        exact (Option.some.injEq _ _ ▸ this).symm
      subst ha
      have hmem_erase : ∀ x, x ∈ st.platforms → x ≠ a → x ∈ l₁ ++ l₂ := by
        intro x hx hxne
        rw [hdecomp] at hx
        rcases List.mem_append.1 hx with h | h
        · exact List.mem_append_left _ h
        · rcases List.mem_cons.1 h with h | h
          · exact absurd h hxne
          · exact List.mem_append_right _ h
      have hres : RemovePlatform st platformName =
          ({ platforms := st.platforms.eraseP (fun p => p.name == platformName)
             currentPlatform :=
               if (if st.currentPlatform == some a then st.platforms.getLast?
                   else st.currentPlatform) == some a then
                 st.platforms.head?
               else
                 if st.currentPlatform == some a then st.platforms.getLast?
                 else st.currentPlatform }, true) := by
        unfold RemovePlatform
        simp only [hfind, hlen, if_neg, if_false]
      rw [hres]
      simp only [herase]
      by_cases h1 : st.currentPlatform = some a
      · obtain ⟨g, hg⟩ : ∃ g, st.platforms.getLast? = some g :=
          ⟨st.platforms.getLast hne, List.getLast?_eq_getLast _ hne⟩
        by_cases h2 : g = a
        · subst h2
          obtain ⟨hd, hh⟩ : ∃ hd, st.platforms.head? = some hd :=
            ⟨st.platforms.head hne, List.head?_eq_head hne⟩
          refine ⟨hd, ?_, ?_⟩
          · simp [h1, hg, hh]
          · cases l₁ with
            | nil =>
              have hhd : hd = g := by
                rw [hdecomp] at hh
                simp only [List.nil_append, List.head?_cons] at hh
                exact (Option.some.injEq _ _ ▸ hh).symm
              subst hhd
              have hl₂ne : l₂ ≠ [] := by
                intro h
                rw [hdecomp, h] at hlen2
                simp at hlen2
              have hgl₂ : l₂.getLast? = some hd := by
                rw [hdecomp] at hg
                simp only [List.nil_append] at hg
                rcases getLast?_cons_elim _ _ _ hg with h | h
                · exact absurd h hl₂ne
                · exact h
              simp only [List.nil_append]
              exact List.mem_of_mem_getLast? hgl₂
            | cons y l₁' =>
              have hhd : hd = y := by
                rw [hdecomp] at hh
                simp only [List.cons_append, List.head?_cons] at hh
                exact (Option.some.injEq _ _ ▸ hh).symm
              subst hhd
              exact List.mem_append_left _ (List.mem_cons_self _ _)
        · refine ⟨g, ?_, ?_⟩
          · simp [h1, hg, h2]
          · exact hmem_erase g (List.mem_of_mem_getLast? hg) h2
      · have hcne : c ≠ a := by
          intro h
          rw [h] at hc
          exact h1 hc
        refine ⟨c, ?_, ?_⟩
        · simp [h1, hc, hcne]
        · exact hmem_erase c hmem hcne

/-- Claim C9, witness: removing the current platform from a two-platform
project leaves `currentPlatform` pointing at a platform. -/
theorem c9_witness :
    ((RemovePlatform
        { platforms := [{ id := 0, name := "x" }, { id := 1, name := "y" }]
          currentPlatform := some { id := 0, name := "x" } }
        "x").1.currentPlatform).isSome = true := by
  obtain ⟨c2, hcur, _⟩ := (c9_theorem
    { platforms := [{ id := 0, name := "x" }, { id := 1, name := "y" }]
      currentPlatform := some { id := 0, name := "x" } }
    "x" { id := 0, name := "x" } rfl (by decide)).2
  rw [hcur]
  rfl

/- Helper lemmas about behavior-map lookups. -/

theorem getBehavior_eq_none (bs : List Behavior) (n : String) :
    getBehavior bs n = none ↔ ∀ b ∈ bs, b.name ≠ n := by
  unfold getBehavior
  rw [List.find?_eq_none]
  constructor
  · intro h b hb
    have := h b hb
    simpa using this
  · intro h b hb
    simpa using h b hb

theorem getBehavior_name_mem (bs : List Behavior) (n : String) (b : Behavior)
    (h : getBehavior bs n = some b) : b.name = n ∧ b ∈ bs := by
  constructor
  · have := List.find?_some (p := fun b : Behavior => b.name == n) h
    simpa using this
  · exact List.mem_of_find?_eq_some h

theorem hasBehaviorNamed_eq_isSome (bs : List Behavior) (n : String) :
    hasBehaviorNamed bs n = (getBehavior bs n).isSome := by
  unfold hasBehaviorNamed getBehavior
  induction bs with
  | nil => rfl
  | cons b t ih =>
    by_cases hb : (b.name == n) = true
    · simp [List.find?_cons_of_pos (p := fun b : Behavior => b.name == n) _ hb, hb]
    · rw [List.find?_cons_of_neg (p := fun b : Behavior => b.name == n) _ hb]
      simp only [List.any_cons, hb, Bool.false_or]
      exact ih

theorem getBehavior_removeBehavior_self (bs : List Behavior) (n : String) :
    getBehavior (removeBehavior bs n) n = none := by
  rw [getBehavior_eq_none]
  intro b hb
  have := List.of_mem_filter hb
  simpa using this

theorem getBehavior_removeBehavior_ne (bs : List Behavior) (n m : String) (h : m ≠ n) :
    getBehavior (removeBehavior bs n) m = getBehavior bs m := by
  unfold getBehavior removeBehavior
  induction bs with
  | nil => rfl
  | cons b t ih =>
    by_cases hb : (b.name == m) = true
    · have hbn : (b.name != n) = true := by
        have : b.name = m := by simpa using hb
        simp [this, h]
      rw [List.filter_cons_of_pos (p := fun b : Behavior => b.name != n) hbn,
        List.find?_cons_of_pos (p := fun b : Behavior => b.name == m) _ hb,
        List.find?_cons_of_pos (p := fun b : Behavior => b.name == m) _ hb]
    · by_cases hbn : (b.name != n) = true
      · rw [List.filter_cons_of_pos (p := fun b : Behavior => b.name != n) hbn,
          List.find?_cons_of_neg (p := fun b : Behavior => b.name == m) _ hb,
          List.find?_cons_of_neg (p := fun b : Behavior => b.name == m) _ hb]
        exact ih
      · rw [List.filter_cons_of_neg (p := fun b : Behavior => b.name != n)
            (by simpa using hbn),
          List.find?_cons_of_neg (p := fun b : Behavior => b.name == m) _ hb]
        exact ih

theorem getBehavior_append (bs1 bs2 : List Behavior) (n : String) :
    getBehavior (bs1 ++ bs2) n = (getBehavior bs1 n).or (getBehavior bs2 n) := by
  unfold getBehavior
  exact List.find?_append

theorem behavior_name_unique (bs : List Behavior)
    (hnd : (bs.map (fun b => b.name)).Nodup) (b1 b2 : Behavior)
    (h1 : b1 ∈ bs) (h2 : b2 ∈ bs) (h : b1.name = b2.name) : b1 = b2 := by
  induction bs with
  | nil => simp at h1
  | cons a t ih =>
    simp only [List.map_cons, List.nodup_cons] at hnd
    obtain ⟨hna, hnt⟩ := hnd
    rcases List.mem_cons.1 h1 with rfl | h1t
    · rcases List.mem_cons.1 h2 with rfl | h2t
      · rfl
      · exact absurd (h ▸ List.mem_map_of_mem (fun b => b.name) h2t) hna
    · rcases List.mem_cons.1 h2 with rfl | h2t
      · exact absurd (h ▸ List.mem_map_of_mem (fun b => b.name) h1t) hna
      · exact ih hnt h1t h2t

theorem getBehavior_of_mem (bs : List Behavior)
    (hnd : (bs.map (fun b => b.name)).Nodup) (b : Behavior) (hb : b ∈ bs) :
    getBehavior bs b.name = some b := by
  induction bs with
  | nil => simp at hb
  | cons a t ih =>
    simp only [List.map_cons, List.nodup_cons] at hnd
    obtain ⟨hna, hnt⟩ := hnd
    rcases List.mem_cons.1 hb with rfl | hbt
    · exact List.find?_cons_of_pos (p := fun x : Behavior => x.name == b.name) _ (by simp)
    · have hne : (a.name == b.name) = false := by
        by_contra h
        have : a.name = b.name := by
          have := eq_true_of_ne_false h
          simpa using this
        exact hna (this ▸ List.mem_map_of_mem (fun b => b.name) hbt)
      unfold getBehavior
      rw [List.find?_cons_of_neg (p := fun x : Behavior => x.name == b.name) _
        (by simp [hne])]
      exact ih hnt hbt

theorem addDefaultBehavior_lookup_self (behaviorMetadata : String → Option String)
    (bs : List Behavior) (t n : String) (h : behaviorMetadata t = some n) :
    getBehavior (addDefaultBehavior behaviorMetadata bs t) n =
      some { name := n, typeName := t, isDefaultBehavior := true } := by
  unfold addDefaultBehavior
  rw [h]
  cases hget : getBehavior bs n with
  | none =>
    have hhas : hasBehaviorNamed bs n = false := by
      rw [hasBehaviorNamed_eq_isSome, hget]
      rfl
    simp only [hget, hhas, Bool.false_eq_true, if_false]
    rw [getBehavior_append, hget]
    simp [getBehavior]
  | some behavior =>
    obtain ⟨hbn, _⟩ := getBehavior_name_mem bs n behavior hget
    simp only [hget]
    by_cases hmatch : (!behavior.isDefaultBehavior || behavior.typeName != t) = true
    · simp only [hmatch, if_pos]
      have hrm : getBehavior (removeBehavior bs n) n = none :=
        getBehavior_removeBehavior_self bs n
      have hhas : hasBehaviorNamed (removeBehavior bs n) n = false := by
        rw [hasBehaviorNamed_eq_isSome, hrm]
        rfl
      simp only [hhas, Bool.false_eq_true, if_false]
      rw [getBehavior_append, hrm]
      simp [getBehavior]
    · simp only [hmatch, Bool.false_eq_true, if_false]
      have hhas : hasBehaviorNamed bs n = true := by
        rw [hasBehaviorNamed_eq_isSome, hget]
        rfl
      simp only [hhas, if_pos]
      rw [hget]
      simp only [Bool.or_eq_true, Bool.not_eq_true', bne_iff_ne, not_or, not_not,
        Decidable.not_not] at hmatch
      obtain ⟨hdef, hty⟩ := hmatch
      congr 1
      cases behavior with
      | mk bname btype bdef =>
        simp only at hbn hdef hty
        simp [hbn, hdef, hty]

theorem addDefaultBehavior_lookup_other (behaviorMetadata : String → Option String)
    (bs : List Behavior) (t n : String) (h : behaviorMetadata t ≠ some n) :
    getBehavior (addDefaultBehavior behaviorMetadata bs t) n = getBehavior bs n := by
  unfold addDefaultBehavior
  cases hmd : behaviorMetadata t with
  | none => rfl
  | some m =>
    have hmn : m ≠ n := by
      intro heq
      exact h (hmd.trans (by rw [heq]))
    have hbs1 : ∀ bs1 : List Behavior,
        getBehavior bs1 n = getBehavior bs n →
        getBehavior
          (if hasBehaviorNamed bs1 m then bs1
           else bs1 ++ [{ name := m, typeName := t, isDefaultBehavior := true }]) n =
          getBehavior bs n := by
      intro bs1 hbs1
      by_cases hh : hasBehaviorNamed bs1 m = true
      · simp only [hh, if_pos]
        exact hbs1
      · simp only [hh, Bool.false_eq_true, if_false]
        rw [getBehavior_append, hbs1]
        have hsingle : getBehavior
            [{ name := m, typeName := t, isDefaultBehavior := true }] n = none := by
          rw [getBehavior_eq_none]
          intro b hb
          simp at hb
          simp [hb, hmn]
        rw [hsingle, Option.or_none]
    cases hget : getBehavior bs m with
    | none =>
      simp only [hget]
      exact hbs1 bs rfl
    | some behavior =>
      simp only [hget]
      by_cases hmatch : (!behavior.isDefaultBehavior || behavior.typeName != t) = true
      · simp only [hmatch, if_pos]
        exact hbs1 (removeBehavior bs m) (getBehavior_removeBehavior_ne bs m n hmn.symm)
      · simp only [hmatch, Bool.false_eq_true, if_false]
        exact hbs1 bs rfl

theorem canonicalTypeFor_cons (behaviorMetadata : String → Option String)
    (t : String) (ts : List String) (n : String) :
    canonicalTypeFor behaviorMetadata (t :: ts) n =
      match canonicalTypeFor behaviorMetadata ts n with
      | some t2 => some t2
      | none => if behaviorMetadata t == some n then some t else none := by
  unfold canonicalTypeFor
  by_cases hmt : (behaviorMetadata t == some n) = true
  · rw [List.filter_cons_of_pos (p := fun t => behaviorMetadata t == some n) hmt]
    cases hts : ts.filter (fun t => behaviorMetadata t == some n) with
    | nil => simp [hmt]
    | cons a l =>
      rw [List.getLast?_cons_cons]
      obtain ⟨g, hg⟩ : ∃ g, (a :: l).getLast? = some g :=
        ⟨(a :: l).getLast (List.cons_ne_nil a l), List.getLast?_eq_getLast _ _⟩
      rw [hg]
  · rw [List.filter_cons_of_neg (p := fun t => behaviorMetadata t == some n)
      (by simpa using hmt)]
    cases hts : ts.filter (fun t => behaviorMetadata t == some n) with
    | nil => simp [hmt]
    | cons a l =>
      obtain ⟨g, hg⟩ : ∃ g, (a :: l).getLast? = some g :=
        ⟨(a :: l).getLast (List.cons_ne_nil a l), List.getLast?_eq_getLast _ _⟩
      rw [hg]

theorem canonicalTypeFor_mem (behaviorMetadata : String → Option String)
    (ts : List String) (n t : String)
    (h : canonicalTypeFor behaviorMetadata ts n = some t) :
    t ∈ ts ∧ behaviorMetadata t = some n := by
  unfold canonicalTypeFor at h
  have hmem := List.mem_of_mem_getLast? h
  constructor
  · exact List.mem_of_mem_filter hmem
  · have := List.of_mem_filter hmem
    simpa using this

theorem foldl_addDefaultBehavior_lookup (behaviorMetadata : String → Option String) :
    ∀ (ts : List String) (bs : List Behavior) (n : String),
      getBehavior (ts.foldl (addDefaultBehavior behaviorMetadata) bs) n =
        match canonicalTypeFor behaviorMetadata ts n with
        | some t => some { name := n, typeName := t, isDefaultBehavior := true }
        | none => getBehavior bs n := by
  intro ts
  induction ts with
  | nil =>
    intro bs n
    simp [canonicalTypeFor]
  | cons t ts ih =>
    intro bs n
    rw [List.foldl_cons, ih (addDefaultBehavior behaviorMetadata bs t) n,
      canonicalTypeFor_cons]
    cases hcan : canonicalTypeFor behaviorMetadata ts n with
    | some t2 => rfl
    | none =>
      by_cases hmt : (behaviorMetadata t == some n) = true
      · simp only [hmt, if_pos]
        exact addDefaultBehavior_lookup_self behaviorMetadata bs t n (by simpa using hmt)
      · simp only [hmt, Bool.false_eq_true, if_false]
        exact addDefaultBehavior_lookup_other behaviorMetadata bs t n (by simpa using hmt)

theorem addDefaultBehavior_nodup (behaviorMetadata : String → Option String)
    (bs : List Behavior) (t : String)
    (hnd : (bs.map (fun b => b.name)).Nodup) :
    ((addDefaultBehavior behaviorMetadata bs t).map (fun b => b.name)).Nodup := by
  unfold addDefaultBehavior
  cases hmd : behaviorMetadata t with
  | none => exact hnd
  | some n =>
    have hrm : ((removeBehavior bs n).map (fun b => b.name)).Nodup :=
      ((List.filter_sublist bs).map (fun b => b.name)).nodup hnd
    have happend : ∀ bs1 : List Behavior, (bs1.map (fun b => b.name)).Nodup →
        ((if hasBehaviorNamed bs1 n then bs1
          else bs1 ++ [{ name := n, typeName := t, isDefaultBehavior := true }]).map
            (fun b => b.name)).Nodup := by
      intro bs1 hnd1
      by_cases hh : hasBehaviorNamed bs1 n = true
      · simp only [hh, if_pos]
        exact hnd1
      · simp only [hh, Bool.false_eq_true, if_false, List.map_append, List.map_cons,
          List.map_nil, List.nodup_append]
        refine ⟨hnd1, List.nodup_singleton n, ?_⟩
        intro x hx hxn
        simp only [List.mem_singleton] at hxn
        obtain ⟨b, hb, hbn⟩ := List.mem_map.1 hx
        have hb2 : hasBehaviorNamed bs1 n = true := by
          unfold hasBehaviorNamed
          rw [List.any_eq_true]
          exact ⟨b, hb, by simp [hbn, hxn]⟩
        exact hh hb2
    cases hget : getBehavior bs n with
    | none =>
      simp only [hget]
      exact happend bs hnd
    | some behavior =>
      simp only [hget]
      by_cases hmatch : (!behavior.isDefaultBehavior || behavior.typeName != t) = true
      · simp only [hmatch, if_pos]
        exact happend (removeBehavior bs n) hrm
      · simp only [hmatch, Bool.false_eq_true, if_false]
        exact happend bs hnd

theorem foldl_addDefaultBehavior_nodup (behaviorMetadata : String → Option String) :
    ∀ (ts : List String) (bs : List Behavior),
      (bs.map (fun b => b.name)).Nodup →
      ((ts.foldl (addDefaultBehavior behaviorMetadata) bs).map (fun b => b.name)).Nodup := by
  intro ts
  induction ts with
  | nil => intro bs hnd; exact hnd
  | cons t ts ih =>
    intro bs hnd
    rw [List.foldl_cons]
    exact ih _ (addDefaultBehavior_nodup behaviorMetadata bs t hnd)

theorem getBehavior_filter (q : Behavior → Bool) :
    ∀ (bs : List Behavior), (bs.map (fun b => b.name)).Nodup → ∀ n : String,
      getBehavior (bs.filter q) n =
        match getBehavior bs n with
        | some b => if q b then some b else none
        | none => none := by
  intro bs
  induction bs with
  | nil => intro _ n; rfl
  | cons b t ih =>
    intro hnd n
    simp only [List.map_cons, List.nodup_cons] at hnd
    obtain ⟨hna, hnt⟩ := hnd
    by_cases hb : (b.name == n) = true
    · have hteq : getBehavior t n = none := by
        rw [getBehavior_eq_none]
        intro x hx hxn
        apply hna
        have hbn' : b.name = n := by simpa using hb
        rw [hbn', ← hxn]
        exact List.mem_map_of_mem (fun b => b.name) hx
      by_cases hq : q b = true
      · rw [List.filter_cons_of_pos hq]
        unfold getBehavior
        rw [List.find?_cons_of_pos (p := fun x : Behavior => x.name == n) _ hb,
          List.find?_cons_of_pos (p := fun x : Behavior => x.name == n) _ hb]
        simp [hq]
      · rw [List.filter_cons_of_neg (by simpa using hq)]
        have hfilter : getBehavior (t.filter q) n = none := by
          rw [getBehavior_eq_none]
          intro x hx
          exact (getBehavior_eq_none t n).1 hteq x (List.mem_of_mem_filter hx)
        rw [hfilter]
        unfold getBehavior
        rw [List.find?_cons_of_pos (p := fun x : Behavior => x.name == n) _ hb]
        simp [hq]
    · have hstep : getBehavior (b :: t) n = getBehavior t n := by
        unfold getBehavior
        rw [List.find?_cons_of_neg (p := fun x : Behavior => x.name == n) _ hb]
      rw [hstep]
      by_cases hq : q b = true
      · rw [List.filter_cons_of_pos hq]
        have hstep2 : getBehavior (b :: t.filter q) n = getBehavior (t.filter q) n := by
          unfold getBehavior
          rw [List.find?_cons_of_neg (p := fun x : Behavior => x.name == n) _ hb]
        rw [hstep2]
        exact ih hnt n
      · rw [List.filter_cons_of_neg (by simpa using hq)]
        exact ih hnt n

theorem cleanupFold_eq_filter (ds : List String) :
    ∀ (ns : List String) (bs : List Behavior), (bs.map (fun b => b.name)).Nodup →
      ns.foldl (fun bs behaviorName =>
        match getBehavior bs behaviorName with
        | none => bs
        | some behavior =>
          if !behavior.isDefaultBehavior then bs
          else if ds.contains behavior.typeName then bs
          else removeBehavior bs behaviorName) bs =
      bs.filter (fun b =>
        !(ns.contains b.name && (b.isDefaultBehavior && !ds.contains b.typeName))) := by
  intro ns
  induction ns with
  | nil =>
    intro bs _
    simp
  | cons n ns ih =>
    intro bs hnd
    rw [List.foldl_cons]
    cases hget : getBehavior bs n with
    | none =>
      simp only [hget]
      rw [ih bs hnd]
      apply List.filter_congr
      intro b hb
      have hbn : b.name ≠ n := (getBehavior_eq_none bs n).1 hget b hb
      simp [hbn]
    | some behavior =>
      obtain ⟨hbname, hbmem⟩ := getBehavior_name_mem bs n behavior hget
      simp only [hget]
      by_cases hdef : behavior.isDefaultBehavior = true
      · by_cases hcont : ds.contains behavior.typeName = true
        · simp only [hdef, hcont, Bool.not_true, Bool.false_eq_true, if_false, if_pos]
          rw [ih bs hnd]
          apply List.filter_congr
          intro b hb
          by_cases hbn : b.name = n
          · have hbeq : b = behavior :=
              behavior_name_unique bs hnd b behavior hb hbmem (hbn.trans hbname.symm)
            subst hbeq
            have hcm : b.typeName ∈ ds := by simpa using hcont
            simp [hcm]
          · simp [hbn]
        · simp only [hdef, hcont, Bool.not_true, Bool.false_eq_true, if_false]
          have hndrm : ((removeBehavior bs n).map (fun b => b.name)).Nodup :=
            ((List.filter_sublist bs).map (fun b => b.name)).nodup hnd
          rw [ih (removeBehavior bs n) hndrm]
          unfold removeBehavior
          rw [List.filter_filter]
          apply List.filter_congr
          intro b hb
          by_cases hbn : b.name = n
          · have hbeq : b = behavior :=
              behavior_name_unique bs hnd b behavior hb hbmem (hbn.trans hbname.symm)
            subst hbeq
            have hcm : b.typeName ∉ ds := by simpa using hcont
            simp [hbn, hdef, hcm]
          · simp [hbn]
      · have hdef' : behavior.isDefaultBehavior = false := by simpa using hdef
        rw [if_pos (show (!behavior.isDefaultBehavior) = true by simp [hdef'])]
        rw [ih bs hnd]
        apply List.filter_congr
        intro b hb
        by_cases hbn : b.name = n
        · have hbeq : b = behavior :=
            behavior_name_unique bs hnd b behavior hb hbmem (hbn.trans hbname.symm)
          subst hbeq
          simp [hdef']
        · simp [hbn]

theorem removeUnusedDefaultBehaviors_eq_filter (ds : List String) (bs : List Behavior)
    (hnd : (bs.map (fun b => b.name)).Nodup) :
    removeUnusedDefaultBehaviors ds bs =
      bs.filter (fun b => !(b.isDefaultBehavior && !ds.contains b.typeName)) := by
  unfold removeUnusedDefaultBehaviors
  rw [cleanupFold_eq_filter ds (bs.map (fun b => b.name)) bs hnd]
  apply List.filter_congr
  intro b hb
  have hmem : b.name ∈ bs.map (fun b => b.name) :=
    List.mem_map_of_mem (fun b => b.name) hb
  simp [hmem]

theorem ensure_objectType (behaviorMetadata : String → Option String)
    (objectMetadata : String → Option (List String)) (object : Object) :
    (EnsureObjectDefaultBehaviors behaviorMetadata objectMetadata object).objectType =
      object.objectType := by
  unfold EnsureObjectDefaultBehaviors
  cases hod : objectMetadata object.objectType with
  | none => rfl
  | some ds => rfl

theorem ensure_nodup (behaviorMetadata : String → Option String)
    (objectMetadata : String → Option (List String)) (object : Object)
    (hnd : (object.behaviors.map (fun b => b.name)).Nodup) :
    ((EnsureObjectDefaultBehaviors behaviorMetadata objectMetadata object).behaviors.map
      (fun b => b.name)).Nodup := by
  unfold EnsureObjectDefaultBehaviors
  cases hod : objectMetadata object.objectType with
  | none => exact hnd
  | some ds =>
    have hnd1 := foldl_addDefaultBehavior_nodup behaviorMetadata ds object.behaviors hnd
    simp only
    rw [removeUnusedDefaultBehaviors_eq_filter ds _ hnd1]
    exact ((List.filter_sublist
      (ds.foldl (addDefaultBehavior behaviorMetadata) object.behaviors)).map
        (fun b => b.name)).nodup hnd1

theorem ensure_lookup (behaviorMetadata : String → Option String)
    (objectMetadata : String → Option (List String)) (object : Object)
    (hnd : (object.behaviors.map (fun b => b.name)).Nodup) (n : String) :
    getBehavior
      (EnsureObjectDefaultBehaviors behaviorMetadata objectMetadata object).behaviors n =
      match objectMetadata object.objectType with
      | none => getBehavior object.behaviors n
      | some ds =>
        match canonicalTypeFor behaviorMetadata ds n with
        | some t => some { name := n, typeName := t, isDefaultBehavior := true }
        | none =>
          match getBehavior object.behaviors n with
          | some b =>
            if !(b.isDefaultBehavior && !ds.contains b.typeName) then some b else none
          | none => none := by
  unfold EnsureObjectDefaultBehaviors
  cases hod : objectMetadata object.objectType with
  | none => rfl
  | some ds =>
    have hnd1 := foldl_addDefaultBehavior_nodup behaviorMetadata ds object.behaviors hnd
    simp only
    rw [removeUnusedDefaultBehaviors_eq_filter ds _ hnd1]
    rw [getBehavior_filter _ _ hnd1 n]
    rw [foldl_addDefaultBehavior_lookup behaviorMetadata ds object.behaviors n]
    cases hcan : canonicalTypeFor behaviorMetadata ds n with
    | some t =>
      simp only [hcan]
      obtain ⟨hts, _⟩ := canonicalTypeFor_mem behaviorMetadata ds n t hcan
      simp [hts]
    | none =>
      simp only [hcan]

/-- Claim C5 (confirmed): `EnsureObjectDefaultBehaviors` is idempotent — with
the metadata registry unchanged between the two applications, the second
application leaves the behavior map untouched: every name lookup agrees, and
the full behavior collection of the twice-synchronized object is a
permutation of (i.e. the same set as) the once-synchronized one.  The
hypothesis is the documented invariant that an object holds at most one
behavior per behavior name. -/
theorem c5_theorem (behaviorMetadata : String → Option String)
    (objectMetadata : String → Option (List String)) (object : Object)
    (hnd : (object.behaviors.map (fun b => b.name)).Nodup) :
    (∀ n, getBehavior (EnsureObjectDefaultBehaviors behaviorMetadata objectMetadata
        (EnsureObjectDefaultBehaviors behaviorMetadata objectMetadata object)).behaviors n =
      getBehavior (EnsureObjectDefaultBehaviors behaviorMetadata objectMetadata
        object).behaviors n) ∧
    ((EnsureObjectDefaultBehaviors behaviorMetadata objectMetadata
        (EnsureObjectDefaultBehaviors behaviorMetadata objectMetadata object)).behaviors).Perm
      ((EnsureObjectDefaultBehaviors behaviorMetadata objectMetadata object).behaviors) := by
  have hnd1 := ensure_nodup behaviorMetadata objectMetadata object hnd
  have hty := ensure_objectType behaviorMetadata objectMetadata object
  have hmain : ∀ n, getBehavior (EnsureObjectDefaultBehaviors behaviorMetadata objectMetadata
      (EnsureObjectDefaultBehaviors behaviorMetadata objectMetadata object)).behaviors n =
      getBehavior (EnsureObjectDefaultBehaviors behaviorMetadata objectMetadata
        object).behaviors n := by
    intro n
    rw [ensure_lookup behaviorMetadata objectMetadata _ hnd1 n, hty]
    rw [ensure_lookup behaviorMetadata objectMetadata object hnd n]
    cases hod : objectMetadata object.objectType with
    | none => simp
    | some ds =>
      cases hcan : canonicalTypeFor behaviorMetadata ds n with
      | some t => simp [hcan]
      | none =>
        cases hx : getBehavior object.behaviors n with
        | none => simp [hcan, hx]
        | some b =>
          simp only [hcan, hx]
          by_cases hq : b.isDefaultBehavior = false ∨ b.typeName ∈ ds
          · simp [hq]
          · simp [hq]
  refine ⟨hmain, ?_⟩
  have hnd2 := ensure_nodup behaviorMetadata objectMetadata
    (EnsureObjectDefaultBehaviors behaviorMetadata objectMetadata object) hnd1
  rw [List.perm_ext_iff_of_nodup (List.Nodup.of_map _ hnd2) (List.Nodup.of_map _ hnd1)]
  intro b
  constructor
  · intro hb
    have hlook := getBehavior_of_mem _ hnd2 b hb
    rw [hmain b.name] at hlook
    exact (getBehavior_name_mem _ _ _ hlook).2
  · intro hb
    have hlook := getBehavior_of_mem _ hnd1 b hb
    rw [← hmain b.name] at hlook
    exact (getBehavior_name_mem _ _ _ hlook).2

/-- Claim C5, witness: a concrete registry and object satisfying the unique
behavior-name invariant; the second synchronization changes nothing. -/
theorem c5_witness :
    getBehavior (EnsureObjectDefaultBehaviors exampleBehaviorMetadata exampleObjectMetadata
        (EnsureObjectDefaultBehaviors exampleBehaviorMetadata exampleObjectMetadata
          { objectType := "Sprite",
            behaviors := [{ name := "user", typeName := "MyExtension::Custom",
                            isDefaultBehavior := false }] })).behaviors "Effect" =
      getBehavior (EnsureObjectDefaultBehaviors exampleBehaviorMetadata exampleObjectMetadata
        { objectType := "Sprite",
          behaviors := [{ name := "user", typeName := "MyExtension::Custom",
                          isDefaultBehavior := false }] }).behaviors "Effect" ∧
    ((EnsureObjectDefaultBehaviors exampleBehaviorMetadata exampleObjectMetadata
        (EnsureObjectDefaultBehaviors exampleBehaviorMetadata exampleObjectMetadata
          { objectType := "Sprite",
            behaviors := [{ name := "user", typeName := "MyExtension::Custom",
                            isDefaultBehavior := false }] })).behaviors).Perm
      ((EnsureObjectDefaultBehaviors exampleBehaviorMetadata exampleObjectMetadata
        { objectType := "Sprite",
          behaviors := [{ name := "user", typeName := "MyExtension::Custom",
                          isDefaultBehavior := false }] }).behaviors) :=
  ⟨(c5_theorem exampleBehaviorMetadata exampleObjectMetadata _ (by decide)).1 "Effect",
   (c5_theorem exampleBehaviorMetadata exampleObjectMetadata _ (by decide)).2⟩

/-- Claim C2 (corrected): a behavior not flagged default is preserved
unchanged by `EnsureObjectDefaultBehaviors` whenever its name differs from
every canonical default name declared by the object's type; a non-default
behavior carrying such a canonical name is removed and re-created as a
default (see the counterexample). -/
theorem c2_theorem (behaviorMetadata : String → Option String)
    (objectMetadata : String → Option (List String)) (object : Object) (b : Behavior)
    (hnd : (object.behaviors.map (fun b => b.name)).Nodup)
    (hb : b ∈ object.behaviors) (hflag : b.isDefaultBehavior = false)
    (hname : b.name ∉ declaredDefaultBehaviorNames behaviorMetadata objectMetadata
      object.objectType) :
    getBehavior (EnsureObjectDefaultBehaviors behaviorMetadata objectMetadata object).behaviors
      b.name = some b := by
  rw [ensure_lookup behaviorMetadata objectMetadata object hnd b.name]
  cases hod : objectMetadata object.objectType with
  | none => exact getBehavior_of_mem _ hnd b hb
  | some ds =>
    have hcan : canonicalTypeFor behaviorMetadata ds b.name = none := by
      cases hc : canonicalTypeFor behaviorMetadata ds b.name with
      | none => rfl
      | some t =>
        obtain ⟨hts, hmd⟩ := canonicalTypeFor_mem behaviorMetadata ds b.name t hc
        exfalso
        apply hname
        unfold declaredDefaultBehaviorNames
        rw [hod]
        exact List.mem_filterMap.2 ⟨t, hts, hmd⟩
    simp only [hcan]
    rw [getBehavior_of_mem _ hnd b hb]
    simp [hflag]

/-- Claim C2, counterexample: a user-added (non-default) behavior named
`"Effect"` — the canonical default name declared by the `"Sprite"` type — is
removed and replaced by a fresh default-flagged behavior, so non-default
behaviors are not always left untouched. -/
theorem c2_counterexample :
    ({ name := "Effect", typeName := "MyExtension::FakeEffect",
       isDefaultBehavior := false } : Behavior) ∈
      ({ objectType := "Sprite",
         behaviors := [{ name := "Effect", typeName := "MyExtension::FakeEffect",
                         isDefaultBehavior := false }] } : Object).behaviors ∧
    (EnsureObjectDefaultBehaviors exampleBehaviorMetadata exampleObjectMetadata
        { objectType := "Sprite",
          behaviors := [{ name := "Effect", typeName := "MyExtension::FakeEffect",
                          isDefaultBehavior := false }] }).behaviors =
      [{ name := "Effect", typeName := "EffectCapability::EffectBehavior",
         isDefaultBehavior := true }] ∧
    ({ name := "Effect", typeName := "MyExtension::FakeEffect",
       isDefaultBehavior := false } : Behavior) ∉
      (EnsureObjectDefaultBehaviors exampleBehaviorMetadata exampleObjectMetadata
        { objectType := "Sprite",
          behaviors := [{ name := "Effect", typeName := "MyExtension::FakeEffect",
                          isDefaultBehavior := false }] }).behaviors := by
  refine ⟨by decide, by decide, by decide⟩

/-- Claim C2, witness for the amended statement: a non-default behavior whose
name is not a canonical default name survives the synchronization unchanged. -/
theorem c2_witness :
    getBehavior (EnsureObjectDefaultBehaviors exampleBehaviorMetadata exampleObjectMetadata
      { objectType := "Sprite",
        behaviors := [{ name := "Health", typeName := "MyExtension::Health",
                        isDefaultBehavior := false }] }).behaviors "Health" =
      some { name := "Health", typeName := "MyExtension::Health",
             isDefaultBehavior := false } :=
  c2_theorem exampleBehaviorMetadata exampleObjectMetadata
    { objectType := "Sprite",
      behaviors := [{ name := "Health", typeName := "MyExtension::Health",
                      isDefaultBehavior := false }] }
    { name := "Health", typeName := "MyExtension::Health", isDefaultBehavior := false }
    (by decide) (by decide) (by decide) (by decide)

/- Helper lemmas for the extension dependency resolver. -/

theorem resolveOnePass_flag_mono (frags : List ExtensionFragment) :
    ∀ (todo kept output : List String),
      (resolveOnePass frags kept todo output true).2.2 = true := by
  intro todo
  induction todo with
  | nil => intro kept output; rfl
  | cons x rest ih =>
    intro kept output
    unfold resolveOnePass
    by_cases h : dependentOnRemaining frags x (kept ++ x :: rest) = true
    · rw [if_pos h]
      exact ih _ _
    · rw [if_neg h]
      exact ih _ _

theorem resolveOnePass_kept_le (frags : List ExtensionFragment) :
    ∀ (todo kept output : List String) (m : Bool),
      (resolveOnePass frags kept todo output m).2.1.length ≤ kept.length + todo.length := by
  intro todo
  induction todo with
  | nil => intro kept output m; simp [resolveOnePass]
  | cons x rest ih =>
    intro kept output m
    unfold resolveOnePass
    by_cases h : dependentOnRemaining frags x (kept ++ x :: rest) = true
    · rw [if_pos h]
      have := ih (kept ++ [x]) output m
      simp at this
      simp
      omega
    · rw [if_neg h]
      have := ih kept (output ++ [x]) true
      simp
      omega

theorem resolveOnePass_kept_lt (frags : List ExtensionFragment) :
    ∀ (todo kept output : List String),
      (resolveOnePass frags kept todo output false).2.2 = true →
      (resolveOnePass frags kept todo output false).2.1.length <
        kept.length + todo.length := by
  intro todo
  induction todo with
  | nil => intro kept output hfl; simp [resolveOnePass] at hfl
  | cons x rest ih =>
    intro kept output hfl
    unfold resolveOnePass at hfl ⊢
    by_cases h : dependentOnRemaining frags x (kept ++ x :: rest) = true
    · rw [if_pos h] at hfl ⊢
      have := ih (kept ++ [x]) output hfl
      simp at this
      simp
      omega
    · rw [if_neg h]
      have := resolveOnePass_kept_le frags rest kept (output ++ [x]) true
      simp
      omega

theorem resolveOnePass_perm (frags : List ExtensionFragment) :
    ∀ (todo kept output : List String) (m : Bool),
      ((resolveOnePass frags kept todo output m).1 ++
        (resolveOnePass frags kept todo output m).2.1).Perm (output ++ kept ++ todo) := by
  intro todo
  induction todo with
  | nil => intro kept output m; simp [resolveOnePass]
  | cons x rest ih =>
    intro kept output m
    unfold resolveOnePass
    by_cases h : dependentOnRemaining frags x (kept ++ x :: rest) = true
    · rw [if_pos h]
      have := ih (kept ++ [x]) output m
      refine this.trans ?_
      simp [List.append_assoc]
    · rw [if_neg h]
      have := ih kept (output ++ [x]) true
      refine this.trans ?_
      have h3 : (x :: (kept ++ rest)).Perm (kept ++ x :: rest) := List.perm_middle.symm
      have h4 := List.Perm.append_left output h3
      simpa using h4

theorem resolveOnePass_no_move (frags : List ExtensionFragment) :
    ∀ (todo kept output : List String),
      (resolveOnePass frags kept todo output false).2.2 = false →
      resolveOnePass frags kept todo output false = (output, kept ++ todo, false) := by
  intro todo
  induction todo with
  | nil => intro kept output _; simp [resolveOnePass]
  | cons x rest ih =>
    intro kept output hfl
    unfold resolveOnePass at hfl ⊢
    by_cases h : dependentOnRemaining frags x (kept ++ x :: rest) = true
    · rw [if_pos h] at hfl ⊢
      rw [ih (kept ++ [x]) output hfl]
      simp
    · rw [if_neg h] at hfl
      rw [resolveOnePass_flag_mono] at hfl
      simp at hfl

theorem resolveOnePass_stuck (frags : List ExtensionFragment) :
    ∀ (todo kept output : List String),
      (resolveOnePass frags kept todo output false).2.2 = false →
      ∀ x ∈ todo, dependentOnRemaining frags x (kept ++ todo) = true := by
  intro todo
  induction todo with
  | nil => intro kept output _ x hx; simp at hx
  | cons y rest ih =>
    intro kept output hfl x hx
    unfold resolveOnePass at hfl
    by_cases h : dependentOnRemaining frags y (kept ++ y :: rest) = true
    · rw [if_pos h] at hfl
      rcases List.mem_cons.1 hx with rfl | hxr
      · exact h
      · have := ih (kept ++ [y]) output hfl x hxr
        simpa [List.append_assoc] using this
    · rw [if_neg h] at hfl
      rw [resolveOnePass_flag_mono] at hfl
      simp at hfl

theorem resolveLoop_eq (frags : List ExtensionFragment) (remaining output : List String) :
    resolveLoop frags remaining output =
      if (resolveOnePass frags [] remaining output false).2.2 = true then
        resolveLoop frags (resolveOnePass frags [] remaining output false).2.1
          (resolveOnePass frags [] remaining output false).1
      else ((resolveOnePass frags [] remaining output false).1,
        (resolveOnePass frags [] remaining output false).2.1) := by
  rw [resolveLoop.eq_def]
  simp only [dite_eq_ite]

theorem findFragmentElement_name (frags : List ExtensionFragment) (a : String)
    (frag : ExtensionFragment) (h : findFragmentElement frags a = some frag) :
    frag.name = a := by
  unfold findFragmentElement at h
  have hmem := List.mem_of_mem_getLast? h
  have := List.of_mem_filter hmem
  simpa using this

theorem findFragmentElement_mem_names (frags : List ExtensionFragment) (a : String)
    (frag : ExtensionFragment) (h : findFragmentElement frags a = some frag) :
    a ∈ frags.map (fun f => f.name) := by
  unfold findFragmentElement at h
  have hmem := List.mem_of_mem_getLast? h
  have hf : frag ∈ frags := List.mem_of_mem_filter hmem
  have hn : frag.name = a := by simpa using List.of_mem_filter hmem
  rw [← hn]
  exact List.mem_map_of_mem _ hf

theorem isDependent_iff (rem : List String) (frag : ExtensionFragment) :
    isDependentFromRemainingExtensions rem frag = true ↔
      ∃ d, d ∈ fragDeps frag ∧ d ≠ frag.name ∧ d ∈ rem := by
  unfold isDependentFromRemainingExtensions fragDeps
  simp only [List.any_eq_true, List.mem_flatten, List.mem_map]
  constructor
  · rintro ⟨ebo, hebo, objectType, hot, hcond⟩
    simp only [Bool.and_eq_true, bne_iff_ne] at hcond
    obtain ⟨hne, hcontains⟩ := hcond
    refine ⟨getExtensionFromFullObjectType objectType,
      ⟨_, ⟨ebo, hebo, rfl⟩, List.mem_map_of_mem _ hot⟩, hne, by simpa using hcontains⟩
  · rintro ⟨d, ⟨l, ⟨ebo, hebo, rfl⟩, hdl⟩, hne, hdrem⟩
    obtain ⟨objectType, hot, rfl⟩ := List.mem_map.1 hdl
    exact ⟨ebo, hebo, objectType, hot, by simp [hne, hdrem]⟩

theorem outputRespectsDeps_nil (frags : List ExtensionFragment) :
    OutputRespectsDeps frags [] := by
  intro pre x post h b hdep
  exfalso
  have := congrArg List.length h
  simp at this
  omega

theorem outputRespectsDeps_concat (frags : List ExtensionFragment)
    (out : List String) (x : String)
    (hout : OutputRespectsDeps frags out)
    (hx : ∀ b, dependsOn frags x b → b ∈ out) :
    OutputRespectsDeps frags (out ++ [x]) := by
  intro pre y post heq b hdep
  rcases List.eq_nil_or_concat post with rfl | ⟨post', z, rfl⟩
  · obtain ⟨h1, h2⟩ := List.append_inj' heq rfl
    have hxy : x = y := by simpa using h2
    subst h1
    subst hxy
    exact hx b hdep
  · have heq2 : out ++ [x] = (pre ++ y :: post') ++ [z] := by
      rw [heq]
      simp [List.concat_eq_append, List.append_assoc]
    obtain ⟨h1, _⟩ := List.append_inj' heq2 rfl
    exact hout pre y post' h1 b hdep

theorem resolveOnePass_respects (frags : List ExtensionFragment) :
    ∀ (todo kept output : List String) (m : Bool),
      ((output ++ kept ++ todo).Perm (frags.map (fun f => f.name))) →
      OutputRespectsDeps frags output →
      OutputRespectsDeps frags (resolveOnePass frags kept todo output m).1 := by
  intro todo
  induction todo with
  | nil =>
    intro kept output m _ hresp
    simpa [resolveOnePass] using hresp
  | cons x rest ih =>
    intro kept output m hperm hresp
    unfold resolveOnePass
    by_cases h : dependentOnRemaining frags x (kept ++ x :: rest) = true
    · rw [if_pos h]
      exact ih (kept ++ [x]) output m (by simpa [List.append_assoc] using hperm) hresp
    · rw [if_neg h]
      have hperm2 : (((output ++ [x]) ++ kept ++ rest)).Perm
          (frags.map (fun f => f.name)) := by
        have h3 : (x :: (kept ++ rest)).Perm (kept ++ x :: rest) := List.perm_middle.symm
        have h4 := List.Perm.append_left output h3
        exact (by simpa using h4 :
          (((output ++ [x]) ++ kept ++ rest)).Perm (output ++ kept ++ (x :: rest))).trans hperm
      apply ih kept (output ++ [x]) true hperm2
      apply outputRespectsDeps_concat frags output x hresp
      intro b hdep
      obtain ⟨frag, hfind, hbdeps, hbne, hbnames⟩ := hdep
      have hfrag_name : frag.name = x := findFragmentElement_name frags x frag hfind
      have h' : dependentOnRemaining frags x (kept ++ x :: rest) = false := by
        simpa using h
      have hnotdep : isDependentFromRemainingExtensions (kept ++ x :: rest) frag = false := by
        unfold dependentOnRemaining at h'
        simpa [hfind] using h'
      have hnot : ¬ ∃ d, d ∈ fragDeps frag ∧ d ≠ frag.name ∧ d ∈ kept ++ x :: rest := by
        rw [← isDependent_iff]
        simp [hnotdep]
      have hbnotin : b ∉ kept ++ x :: rest := by
        intro hbin
        exact hnot ⟨b, hbdeps, by rw [hfrag_name]; exact hbne, hbin⟩
      have hbin2 : b ∈ output ++ kept ++ (x :: rest) := (hperm.mem_iff).2 hbnames
      rcases List.mem_append.1 hbin2 with h1 | h2
      · rcases List.mem_append.1 h1 with h3 | h4
        · exact h3
        · exact absurd (List.mem_append_left _ h4) hbnotin
      · exact absurd (List.mem_append_right _ h2) hbnotin

theorem resolveLoop_spec (frags : List ExtensionFragment) :
    ∀ (N : Nat) (remaining output : List String), remaining.length ≤ N →
      ((output ++ remaining).Perm (frags.map (fun f => f.name))) →
      OutputRespectsDeps frags output →
      ((resolveLoop frags remaining output).1 ++
        (resolveLoop frags remaining output).2).Perm (frags.map (fun f => f.name)) ∧
      OutputRespectsDeps frags (resolveLoop frags remaining output).1 ∧
      (∀ x ∈ (resolveLoop frags remaining output).2,
        dependentOnRemaining frags x ((resolveLoop frags remaining output).2) = true) := by
  intro N
  induction N with
  | zero =>
    intro remaining output hlen hperm hresp
    have hrem : remaining = [] := List.length_eq_zero.1 (Nat.le_zero.1 hlen)
    subst hrem
    have hpass : resolveOnePass frags [] [] output false = (output, [], false) := rfl
    rw [resolveLoop_eq, hpass]
    simp only [Bool.false_eq_true, if_false]
    refine ⟨by simpa using hperm, hresp, ?_⟩
    intro x hx
    simp at hx
  | succ k ih =>
    intro remaining output hlen hperm hresp
    rw [resolveLoop_eq]
    by_cases hfl : (resolveOnePass frags [] remaining output false).2.2 = true
    · rw [if_pos hfl]
      apply ih
      · have := resolveOnePass_kept_lt frags remaining [] output hfl
        simp at this
        omega
      · have hp := resolveOnePass_perm frags remaining [] output false
        refine hp.trans ?_
        simpa using hperm
      · exact resolveOnePass_respects frags remaining [] output false
          (by simpa using hperm) hresp
    · rw [if_neg hfl]
      have hfl' : (resolveOnePass frags [] remaining output false).2.2 = false := by
        simpa using hfl
      have hnm := resolveOnePass_no_move frags remaining [] output hfl'
      rw [hnm]
      refine ⟨by simpa using hperm, hresp, ?_⟩
      intro x hx
      have := resolveOnePass_stuck frags remaining [] output hfl' x (by simpa using hx)
      simpa using this

theorem exists_transGen_cycle {α : Type} [DecidableEq α] (S : List α) (E : α → α → Prop)
    (hne : S ≠ []) (hsucc : ∀ x ∈ S, ∃ y, y ∈ S ∧ E x y) :
    ∃ x, Relation.TransGen E x x := by
  classical
  obtain ⟨f, hf⟩ : ∃ f : α → α, ∀ x ∈ S, f x ∈ S ∧ E x (f x) :=
    ⟨fun x => dite (x ∈ S) (fun hx => (hsucc x hx).choose) (fun _ => x),
      fun x hx => by
        simp only [dif_pos hx]
        exact (hsucc x hx).choose_spec⟩
  have hg : ∀ n, f^[n] (S.head hne) ∈ S := by
    intro n
    induction n with
    | zero => simpa using List.head_mem hne
    | succ k ihk =>
      rw [Function.iterate_succ_apply']
      exact (hf _ ihk).1
  have hstep : ∀ n, E (f^[n] (S.head hne)) (f^[n + 1] (S.head hne)) := by
    intro n
    rw [Function.iterate_succ_apply']
    exact (hf _ (hg n)).2
  have hchain : ∀ n m, m < n →
      Relation.TransGen E (f^[m] (S.head hne)) (f^[n] (S.head hne)) := by
    intro n
    induction n with
    | zero => intro m hm; omega
    | succ k ihk =>
      intro m hm
      rcases Nat.lt_succ_iff_lt_or_eq.1 hm with h | h
      · exact (ihk m h).tail (hstep k)
      · subst h
        exact Relation.TransGen.single (hstep m)
  have hcard : S.toFinset.card < (Finset.range (S.length + 1)).card := by
    rw [Finset.card_range]
    exact Nat.lt_succ_of_le (List.toFinset_card_le S)
  obtain ⟨m, _, n, _, hmn, heq⟩ :=
    Finset.exists_ne_map_eq_of_card_lt_of_maps_to hcard
      (fun n _ => List.mem_toFinset.2 (hg n))
  rcases Nat.lt_or_ge m n with h | h
  · refine ⟨f^[m] (S.head hne), ?_⟩
    have hc := hchain n m h
    rw [← heq] at hc
    exact hc
  · have h2 : n < m := by omega
    refine ⟨f^[n] (S.head hne), ?_⟩
    have hc := hchain m n h2
    rw [heq] at hc
    exact hc

theorem indexOf_append_cons (a : String) (pre post : List String) (ha : a ∉ pre) :
    (pre ++ a :: post).indexOf a = pre.length := by
  induction pre with
  | nil => simp [List.indexOf_cons]
  | cons p t ih =>
    have hpa : (p == a) = false := by
      have hne : p ≠ a := fun h => ha (h ▸ List.mem_cons_self p t)
      simpa using hne
    simp only [List.cons_append, List.indexOf_cons, hpa, cond_false, List.length_cons]
    rw [ih (fun h => ha (List.mem_cons_of_mem p h))]

theorem indexOf_append_left_lt (b : String) (pre rest : List String) (hb : b ∈ pre) :
    (pre ++ rest).indexOf b < pre.length := by
  induction pre with
  | nil => simp at hb
  | cons p t ih =>
    by_cases hpb : (p == b) = true
    · simp [List.indexOf_cons, hpb]
    · have hbt : b ∈ t := by
        rcases List.mem_cons.1 hb with rfl | h
        · simp at hpb
        · exact h
      simp only [List.cons_append, List.indexOf_cons, hpb, cond_false, List.length_cons]
      exact Nat.succ_lt_succ (ih hbt)

/-- Claim C1 (corrected): the resolver always terminates and its result,
together with the remaining (stuck) names at the fixed point, is a
rearrangement of the input extension names — but the stuck remainder is
dropped from the returned order, not appended to it, so the output can omit
extensions (exactly those that are still mutually blocked — each one depends
on another member of the stuck remainder — i.e. a dependency cycle). -/
theorem c1_theorem (frags : List ExtensionFragment) :
    (GetUnserializingOrderExtensionNames frags ++
      UnresolvedExtensionNamesAtFixpoint frags).Perm (frags.map (fun f => f.name)) ∧
    ∀ x ∈ UnresolvedExtensionNamesAtFixpoint frags,
      dependentOnRemaining frags x (UnresolvedExtensionNamesAtFixpoint frags) = true := by
  have h := resolveLoop_spec frags (frags.map (fun f => f.name)).length
    (frags.map (fun f => f.name)) [] (le_refl _) (by simp) (outputRespectsDeps_nil frags)
  exact ⟨h.1, h.2.2⟩

/-- Claim C1, counterexample: for the two-fragment cycle `A ↔ B`, the first
full pass moves zero extensions, the loop stops, and the returned order is
empty — `"A"` is an input extension name absent from the output, so the
output does not contain every input extension name (nothing is appended). -/
theorem c1_counterexample :
    "A" ∈ exampleCyclicFragments.map (fun f => f.name) ∧
    "A" ∉ GetUnserializingOrderExtensionNames exampleCyclicFragments := by
  constructor
  · decide
  · have hpass : resolveOnePass exampleCyclicFragments [] ["A", "B"] [] false =
        ([], ["A", "B"], false) := by decide
    have hmap : exampleCyclicFragments.map (fun f => f.name) = ["A", "B"] := by decide
    have hloop : resolveLoop exampleCyclicFragments ["A", "B"] [] = ([], ["A", "B"]) := by
      rw [resolveLoop_eq, hpass]
      simp
    unfold GetUnserializingOrderExtensionNames
    rw [hmap, hloop]
    simp

/-- Claim C3 (confirmed): when the dependency graph over the (duplicate-free)
extension names is acyclic, the resolver's output is a permutation of the
input names — every extension appears, self-references and references to
absent extensions never blocking any of them — and every extension appears
strictly after each extension whose custom objects it embeds a child type
from. -/
theorem c3_theorem (frags : List ExtensionFragment)
    (hnodup : (frags.map (fun f => f.name)).Nodup)
    (hacyc : ∀ x, ¬ Relation.TransGen (dependsOn frags) x x) :
    (GetUnserializingOrderExtensionNames frags).Perm (frags.map (fun f => f.name)) ∧
    ∀ a b, dependsOn frags a b →
      (GetUnserializingOrderExtensionNames frags).indexOf b <
        (GetUnserializingOrderExtensionNames frags).indexOf a := by
  obtain ⟨hperm, hresp, hstuck⟩ := resolveLoop_spec frags
    (frags.map (fun f => f.name)).length (frags.map (fun f => f.name)) [] (le_refl _)
    (by simp) (outputRespectsDeps_nil frags)
  have hR : UnresolvedExtensionNamesAtFixpoint frags = [] := by
    by_contra hne
    have hsucc : ∀ x ∈ UnresolvedExtensionNamesAtFixpoint frags,
        ∃ y, y ∈ UnresolvedExtensionNamesAtFixpoint frags ∧ dependsOn frags x y := by
      intro x hx
      have hdep := hstuck x hx
      unfold dependentOnRemaining at hdep
      cases hfind : findFragmentElement frags x with
      | none => simp [hfind] at hdep
      | some frag =>
        simp only [hfind] at hdep
        obtain ⟨d, hdd, hdne, hdR⟩ := (isDependent_iff _ frag).1 hdep
        refine ⟨d, hdR, frag, hfind, hdd, ?_, ?_⟩
        · rw [findFragmentElement_name frags x frag hfind] at hdne
          exact hdne
        · have hdmem : d ∈ GetUnserializingOrderExtensionNames frags ++
              UnresolvedExtensionNamesAtFixpoint frags := List.mem_append_right _ hdR
          exact (hperm.mem_iff).1 hdmem
    obtain ⟨x, hx⟩ := exists_transGen_cycle (UnresolvedExtensionNamesAtFixpoint frags)
      (dependsOn frags) hne hsucc
    exact hacyc x hx
  have hpermO : (GetUnserializingOrderExtensionNames frags).Perm
      (frags.map (fun f => f.name)) := by
    have h2 : GetUnserializingOrderExtensionNames frags ++
        UnresolvedExtensionNamesAtFixpoint frags =
        GetUnserializingOrderExtensionNames frags := by
      rw [hR]
      simp
    rw [← h2]
    exact hperm
  refine ⟨hpermO, ?_⟩
  intro a b hdep
  have hOnodup : (GetUnserializingOrderExtensionNames frags).Nodup :=
    hpermO.symm.nodup hnodup
  have haO : a ∈ GetUnserializingOrderExtensionNames frags := by
    obtain ⟨frag, hfind, _, _, _⟩ := hdep
    exact (hpermO.mem_iff).2 (findFragmentElement_mem_names frags a frag hfind)
  have hbO : b ∈ GetUnserializingOrderExtensionNames frags := by
    obtain ⟨_, _, _, _, hbnames⟩ := hdep
    exact (hpermO.mem_iff).2 hbnames
  obtain ⟨pre, post, hdecomp⟩ := List.append_of_mem haO
  have hbpre : b ∈ pre := hresp pre a post hdecomp b hdep
  have hanotpre : a ∉ pre := by
    intro hain
    have hnd2 : (pre ++ a :: post).Nodup := hdecomp ▸ hOnodup
    rw [List.nodup_append] at hnd2
    exact hnd2.2.2 hain (List.mem_cons_self a post)
  rw [hdecomp, indexOf_append_cons a pre post hanotpre]
  exact indexOf_append_left_lt b pre (a :: post) hbpre

/-- Claim C3, witness: a single extension whose custom object carries a
self-reference and a reference to an absent extension — the dependency graph
has no edges, hence no cycles — resolves to an order containing it. -/
theorem c3_witness :
    (GetUnserializingOrderExtensionNames [exampleSelfRefFragment]).Perm
      ([exampleSelfRefFragment].map (fun f => f.name)) := by
  have hnoedge : ∀ a b, ¬ dependsOn [exampleSelfRefFragment] a b := by
    rintro a b ⟨frag, hfind, hdeps, hne, hmem⟩
    have hb : b = "A" := by
      simpa [exampleSelfRefFragment] using hmem
    have ha : frag.name = a := findFragmentElement_name _ a frag hfind
    have hfr : frag ∈ [exampleSelfRefFragment] := by
      unfold findFragmentElement at hfind
      exact List.mem_of_mem_filter (List.mem_of_mem_getLast? hfind)
    have hfr2 : frag = exampleSelfRefFragment := by simpa using hfr
    subst hfr2
    have ha2 : a = "A" := by
      rw [← ha]
      rfl
    exact hne (hb.trans ha2.symm)
  have hacyc : ∀ x, ¬ Relation.TransGen (dependsOn [exampleSelfRefFragment]) x x := by
    intro x hx
    cases hx with
    | single h => exact hnoedge _ _ h
    | tail h1 h2 => exact hnoedge _ _ h2
  exact (c3_theorem [exampleSelfRefFragment] (by decide) hacyc).1
